import Mathlib

/-!
Verification development for the research-assistant repository.

The repository contains three near-duplicate front-ends sharing one core:
text sanitization, extractive summarization, Crossref-record normalization,
and a persistent deduplicated library of papers and PDF documents.  This
file gives a shallow embedding of that core in Lean, translated function by
function from the Python sources:

* `research_assistant.py`            (definitions suffixed `RA`)
* `research_assistant_streamlit_light.py`  (suffixed `Light` / `L`)
* `research_assistant_streamlit_modern.py` (suffixed `Modern` / `M`)

Strings are modelled as `List Char` (`Str`); Python regular-expression
scans are modelled as explicit left-to-right character automata that
reproduce the exact leftmost, non-overlapping matching behaviour of
`re.sub` / `re.split` / `re.findall` for the concrete patterns used by the
sources.  Python `int` is modelled as `Int` where a claim depends on
negative values (list slicing), `Nat` elsewhere.
-/

/-- Strings are lists of characters. -/
abbrev Str := List Char

/-- Python's `\s` for the ASCII range: space, tab, newline, carriage
return, vertical tab, form feed. -/
def isWsB (c : Char) : Bool :=
  c = ' ' || c = '\t' || c = '\n' || c = '\r' || c = '\x0b' || c = '\x0c'

/-- `str.strip()` from the left. -/
def stripL (s : Str) : Str := s.dropWhile isWsB

/-- Python's `str.strip()`: drop leading and trailing whitespace. -/
def stripBoth (s : Str) : Str := ((s.dropWhile isWsB).reverse.dropWhile isWsB).reverse

/-- Join a list of fragments with single spaces (`" ".join(...)`). -/
def joinSpace (l : List Str) : Str := (l.intersperse [' ']).flatten

/-- One step state of the whitespace collapser: `pend` records that a
whitespace run is pending and must be rendered as one space before the
next non-whitespace character. -/
def collapseGo (pend : Bool) : Str → Str
  | [] => []
  | c :: rest =>
    if isWsB c then collapseGo true rest
    else if pend then ' ' :: c :: collapseGo false rest
    else c :: collapseGo false rest

/-- `re.sub(r"\s+", " ", s).strip()`: collapse every whitespace run to a
single space and trim both ends. -/
def collapseWs (s : Str) : Str := collapseGo false (s.dropWhile isWsB)

/-- Sentence-splitting automaton for `re.split(r"(?<=[.!?])\s+", text)`
(and the light variant with the extra fullwidth terminators).  `term` is
the terminator set, `skip` records that we are inside the `\s+` separator
run, `prev` is the previously scanned character (for the lookbehind), and
`cur` is the current fragment, reversed. -/
def splitSentGo (term : Char → Bool) (skip : Bool) (prev : Option Char) (cur : Str) :
    Str → List Str
  | [] => [cur.reverse]
  | c :: rest =>
    if skip then
      if isWsB c then splitSentGo term true (some c) cur rest
      else splitSentGo term false (some c) [c] rest
    else
      if isWsB c && (match prev with | some p => term p | none => false) then
        cur.reverse :: splitSentGo term true (some c) [] rest
      else splitSentGo term false (some c) (c :: cur) rest

/-- Terminators of `research_assistant.py`: `[.!?]`. -/
def termRA (c : Char) : Bool := c = '.' || c = '!' || c = '?'

/-- Terminators of the streamlit variants: `[.!?。！？]`. -/
def termLight (c : Char) : Bool :=
  c = '.' || c = '!' || c = '?' || c = '。' || c = '！' || c = '？'

/-- `re.split(r"(?<=[.!?])\s+", text)` of `research_assistant.py`. -/
def splitSentRA (s : Str) : List Str := splitSentGo termRA false none [] s

/-- `re.split(r"(?<=[.!?。！？])\s+", text)` of the streamlit variants. -/
def splitSentLight (s : Str) : List Str := splitSentGo termLight false none [] s

/-- ASCII letter (`[a-zA-Z]`). -/
def isAsciiAlpha (c : Char) : Bool := ('a' ≤ c && c ≤ 'z') || ('A' ≤ c && c ≤ 'Z')

/-- ASCII digit. -/
def isAsciiDigit (c : Char) : Bool := '0' ≤ c && c ≤ '9'

/-- Python regex word character over ASCII (`[A-Za-z0-9_]`). -/
def isWordChar (c : Char) : Bool := isAsciiAlpha c || isAsciiDigit c || c = '_'

/-- Split a string into its maximal runs of characters satisfying `p`
(the accumulator holds the current run, reversed). -/
def runsGo (p : Char → Bool) (cur : Str) : Str → List Str
  | [] => if cur = [] then [] else [cur.reverse]
  | c :: rest =>
    if p c then runsGo p (c :: cur) rest
    else if cur = [] then runsGo p [] rest
    else cur.reverse :: runsGo p [] rest

/-- Maximal runs of characters satisfying `p`. -/
def runs (p : Char → Bool) (s : Str) : List Str := runsGo p [] s

/-- ASCII lower-casing, as `str.lower()` acts on ASCII letters. -/
def lowerChar (c : Char) : Char :=
  if 'A' ≤ c && c ≤ 'Z' then Char.ofNat (c.toNat + 32) else c

/-- `re.findall(r"\b[a-zA-Z]{3,}\b", sentence.lower())`: a token is a
maximal word-character run that consists only of letters and has length
at least 3 (the `\b` boundaries sit at the edges of word-character runs,
so a letter run adjacent to a digit or underscore never matches). -/
def tokensRA (s : Str) : List Str :=
  ((runs isWordChar s).filter (fun r => r.all isAsciiAlpha && 3 ≤ r.length)).map
    (fun r => r.map lowerChar)

/-- Word characters of the light tokenizer `[\wぁ-んァ-ン一-龯]{2,}`:
Python's unicode `\w` restricted to the ASCII range, plus the three
Japanese ranges named by the pattern. -/
def isTokenCharLight (c : Char) : Bool :=
  isWordChar c || (0x3041 ≤ c.toNat && c.toNat ≤ 0x3093)
    || (0x30A1 ≤ c.toNat && c.toNat ≤ 0x30F3)
    || (0x4E00 ≤ c.toNat && c.toNat ≤ 0x9FAF)

/-- `re.findall(r"[\wぁ-んァ-ン一-龯]{2,}", s.lower())`. -/
def tokensLight (s : Str) : List Str :=
  (runs isTokenCharLight (s.map lowerChar)).filter (fun r => 2 ≤ r.length)

/-- Insertion-order-preserving frequency table (a Python `dict`),
`freq[w] = freq.get(w, 0) + 1`. -/
def bumpFreq : List (Str × Nat) → Str → List (Str × Nat)
  | [], w => [(w, 1)]
  | (k, v) :: rest, w =>
    if k = w then (k, v + 1) :: rest else (k, v) :: bumpFreq rest w

/-- `freq.get(w, 0)`. -/
def freqGet (m : List (Str × Nat)) (w : Str) : Nat :=
  match m with
  | [] => 0
  | (k, v) :: rest => if k = w then v else freqGet rest w

/-- Build the global term-frequency table of a sentence list. -/
def buildFreq (tok : Str → List Str) (sents : List Str) : List (Str × Nat) :=
  sents.foldl (fun m s => (tok s).foldl bumpFreq m) []

/-- Score of one sentence: the sum of the global frequencies of its
tokens. -/
def sentScore (tok : Str → List Str) (freq : List (Str × Nat)) (s : Str) : Nat :=
  (tok s).foldl (fun acc w => acc + freqGet freq w) 0

/-- Stable insertion (by an `Int` key) of `x` into an already processed
list: `x` goes in front of the first element whose key is not smaller,
which reproduces the stability of Python's `sorted`. -/
def insKey (key : α → Int) (x : α) : List α → List α
  | [] => [x]
  | y :: ys => if key y < key x then y :: insKey key x ys else x :: y :: ys

/-- Stable sort by an `Int` key, ascending: Python's
`sorted(l, key=key)`.  `sorted(l, key=k, reverse=True)` is
`pySortK (fun a => -(k a)) l` (both are stable in the same direction). -/
def pySortK (key : α → Int) : List α → List α
  | [] => []
  | x :: xs => insKey key x (pySortK key xs)

/-- Python slicing `l[:k]` for an arbitrary (possibly negative) `k`. -/
def pyTake (k : Int) (l : List α) : List α :=
  if 0 ≤ k then l.take k.toNat else l.take (l.length - min (-k).toNat l.length)

/-- `enumerate(l)`. -/
def pyEnumGo (n : Nat) : List α → List (Nat × α)
  | [] => []
  | x :: xs => (n, x) :: pyEnumGo (n + 1) xs

/-- `enumerate(l)` starting at 0. -/
def pyEnum (l : List α) : List (Nat × α) := pyEnumGo 0 l

/-- `l.index(x)`: index of the first occurrence. -/
def pyIndexOf (l : List Str) (x : Str) : Nat :=
  match l with
  | [] => 0
  | y :: ys => if y = x then 0 else pyIndexOf ys x + 1

/-- The `(score, sentence)` pairs of `research_assistant.py`'s
summarizer. -/
def raScored (raw : List Str) : List (Nat × Str) :=
  raw.map (fun s => (sentScore tokensRA (buildFreq tokensRA raw) s, s))

/-- Selection of `research_assistant.py`: top `k` by score (stable
descending sort, then the Python slice `[:k]`), re-sorted by
`raw_sentences.index(sentence)`. -/
def raTop (raw : List Str) (k : Int) : List (Nat × Str) :=
  pySortK (fun x => (pyIndexOf raw x.2 : Int))
    (pyTake k (pySortK (fun x => -(x.1 : Int)) (raScored raw)))

/-- `summarise_text` of `research_assistant.py`:
split into sentences; if the sentence count is at most `k` return the
input text itself; otherwise build the word-frequency table, score each
sentence, take the top `k` by score, re-sort them by
`raw_sentences.index(sentence)` and join the stripped sentences with
single spaces. -/
def summariseRA (text : Str) (k : Int) : Str :=
  if ((splitSentRA text).length : Int) ≤ k then text
  else joinSpace ((raTop (splitSentRA text) k).map (fun x => stripBoth x.2))

/-- The cleaned sentence list of the light summarizer: collapse
whitespace, split, strip each fragment, drop empties. -/
def lightSentencesOf (t : Str) : List Str :=
  ((splitSentLight t).map stripBoth).filter (fun s => ¬ s = [])

/-- The scored triples `(score, idx, sentence)` of the light summarizer. -/
def lightScored (raw : List Str) : List (Nat × Nat × Str) :=
  let freq := buildFreq tokensLight raw
  (pyEnum raw).map (fun p => (sentScore tokensLight freq p.2, p.1, p.2))

/-- Selection step of the light summarizer: top `k` by score
(stable descending), then re-sorted by original index. -/
def lightTop (raw : List Str) (k : Int) : List (Nat × Nat × Str) :=
  pySortK (fun x => (x.2.1 : Int))
    (pyTake k (pySortK (fun x => -(x.1 : Int)) (lightScored raw)))

/-- `summarise_text` of `research_assistant_streamlit_light.py`:
collapse whitespace and strip; empty text yields the empty string; split
into cleaned sentences; if the count is at most `k` rejoin them with
single spaces; otherwise score, select the top `k` (stable), re-sort by
the index recorded at enumeration time, and join. -/
def summariseLight (text : Str) (k : Int) : Str :=
  if collapseWs text = [] then []
  else if ((lightSentencesOf (collapseWs text)).length : Int) ≤ k then
    joinSpace (lightSentencesOf (collapseWs text))
  else joinSpace ((lightTop (lightSentencesOf (collapseWs text)) k).map (fun x => x.2.2))

/-- The cleaned sentences the light summarizer works on, from the raw
input text. -/
def lightSentences (text : Str) : List Str := lightSentencesOf (collapseWs text)

/-- Tag-removal automaton for `re.sub(r"<[^>]+>", "", s)`.  While inside
a candidate tag the buffer holds the consumed characters (reversed,
starting with `'<'`).  A `'>'` closing a buffer of length at least 2
completes a match (which is dropped); `"<>"` is not a match and is kept;
an unclosed candidate at the end of input is emitted unchanged.  This
reproduces Python's leftmost non-overlapping matching: `[^>]+` cannot
cross a `'>'`, so a match always ends at the first `'>'` at distance at
least 2 from the `'<'`. -/
def stripTagsGo : Option Str → Str → Str
  | none, [] => []
  | some buf, [] => buf.reverse
  | none, c :: rest =>
    if c = '<' then stripTagsGo (some [c]) rest else c :: stripTagsGo none rest
  | some buf, c :: rest =>
    if c = '>' then
      if 2 ≤ buf.length then stripTagsGo none rest
      else buf.reverse ++ '>' :: stripTagsGo none rest
    else stripTagsGo (some (c :: buf)) rest

/-- `re.sub(r"<[^>]+>", "", s)`. -/
def stripTags (s : Str) : Str := stripTagsGo none s

/-- Entity-removal automaton for `re.sub("&" ++ letters ++ ";", repl, s)`
where `letters` is `[a-zA-Z]+` (light) or `[a-z]+` (research_assistant).
The buffer holds the letters read after a `'&'` (reversed); a `';'`
after at least one letter completes a match, replaced by `repl`; on any
other character the candidate is emitted and scanning resumes (a fresh
`'&'` restarts a candidate, exactly as Python resumes its scan at the
failed match's start + 1 and later positions). -/
def stripEntGo (letterOk : Char → Bool) (repl : Str) : Option Str → Str → Str
  | none, [] => []
  | some ls, [] => '&' :: ls.reverse
  | none, c :: rest =>
    if c = '&' then stripEntGo letterOk repl (some []) rest
    else c :: stripEntGo letterOk repl none rest
  | some ls, c :: rest =>
    if letterOk c then stripEntGo letterOk repl (some (c :: ls)) rest
    else if c = ';' ∧ ls ≠ [] then repl ++ stripEntGo letterOk repl none rest
    else if c = '&' then '&' :: ls.reverse ++ stripEntGo letterOk repl (some []) rest
    else '&' :: ls.reverse ++ c :: stripEntGo letterOk repl none rest

/-- ASCII lowercase letter (`[a-z]`). -/
def isAsciiLower (c : Char) : Bool := 'a' ≤ c && c ≤ 'z'

/-- `strip_html` of `research_assistant_streamlit_light.py`:
remove `<[^>]+>` tags, replace `&[a-zA-Z]+;` entities by a space,
collapse whitespace runs to single spaces and strip the ends. -/
def stripHtmlLight (s : Str) : Str :=
  collapseWs (stripEntGo isAsciiAlpha [' '] none (stripTags s))

/-- The inline abstract sanitizer of `Paper.from_crossref` in
`research_assistant.py`: remove `<[^>]+>` tags, delete `&[a-z]+;`
entities outright, then `strip()` the ends (no whitespace collapsing). -/
def sanitizeRA (s : Str) : Str :=
  stripBoth (stripEntGo isAsciiLower [] none (stripTags s))


/-- Dynamic JSON-like values, as delivered by the Crossref API and
handled untyped by the Python code. -/
inductive Jv where
  | null
  | bool (b : Bool)
  | int (n : Int)
  | str (s : String)
  | arr (elems : List Jv)
  | obj (fields : List (String × Jv))
deriving Repr

/-- Python truthiness on `Jv`: `None`, `False`, `0`, `""`, `[]`, `{}`
are falsy. -/
def jvFalsy : Jv → Bool
  | .null => true
  | .bool b => !b
  | .int n => n == 0
  | .str s => s == ""
  | .arr l => l.isEmpty
  | .obj l => l.isEmpty

/-- The Python exceptions distinguished by the sources' `except` clauses. -/
inductive PyErr where
  | keyError
  | indexError
  | typeError
  | attrError
deriving Repr, DecidableEq

/-- First-match lookup in a JSON object. -/
def objGet (fields : List (String × Jv)) (k : String) : Option Jv :=
  match fields with
  | [] => none
  | (k', v) :: rest => if k' = k then some v else objGet rest k

/-- `v.get(k, dflt)`: `AttributeError` on a non-dict receiver. -/
def pyGetMethod (v : Jv) (k : String) (dflt : Jv) : Except PyErr Jv :=
  match v with
  | .obj fs => .ok ((objGet fs k).getD dflt)
  | _ => .error .attrError

/-- `v[i]`: list indexing (with Python's negative indices) raising
`IndexError` out of range and `TypeError` on a non-int index; dict
indexing raising `KeyError` on a missing key; string indexing yielding
a one-character string; `TypeError` on non-subscriptable values. -/
def pySubscript (v : Jv) (i : Jv) : Except PyErr Jv :=
  match v, i with
  | .arr l, .int n =>
    let m : Int := if n < 0 then n + l.length else n
    if h : 0 ≤ m ∧ m.toNat < l.length then .ok (l.get ⟨m.toNat, h.2⟩)
    else .error .indexError
  | .arr _, _ => .error .typeError
  | .str s, .int n =>
    let l := s.data
    let m : Int := if n < 0 then n + l.length else n
    if h : 0 ≤ m ∧ m.toNat < l.length then .ok (.str (String.mk [l.get ⟨m.toNat, h.2⟩]))
    else .error .indexError
  | .str _, _ => .error .typeError
  | .obj fs, .str k =>
    match objGet fs k with
    | some w => .ok w
    | none => .error .keyError
  | .obj _, _ => .error .keyError
  | .null, _ => .error .typeError
  | .bool _, _ => .error .typeError
  | .int _, _ => .error .typeError

/-- Is the value a Python `list`? -/
def isJvArr : Jv → Bool
  | .arr _ => true
  | _ => false

/-- The `date_info["date-parts"][0][0]` extraction chain. -/
def datePartsChain (v : Jv) : Except PyErr Jv :=
  pySubscript v (.str "date-parts") >>= fun dp =>
    pySubscript dp (.int 0) >>= fun e0 => pySubscript e0 (.int 0)

/-- Year scan of `Paper.from_crossref` in `research_assistant.py`:
for each date source in order, if the value is truthy and its
`date-parts` (defaulting to `[]`) is a list, evaluate
`date_info["date-parts"][0][0]` and stop; `IndexError`/`TypeError` are
caught and move to the next source, every other exception (notably the
`KeyError` raised when `date-parts` is missing, since the subscript does
not reuse the `.get` default) propagates.  The result is the final value
of the `year` variable, `null` when no source succeeded. -/
def yearRAGo : List (Option Jv) → Except PyErr Jv
  | [] => .ok .null
  | d :: rest =>
    match d with
    | none => yearRAGo rest
    | some v =>
      if jvFalsy v then yearRAGo rest
      else
        match pyGetMethod v "date-parts" (.arr []) with
        | .error e => .error e
        | .ok g =>
          if isJvArr g then
            match datePartsChain v with
            | .ok y => .ok y
            | .error .indexError => yearRAGo rest
            | .error .typeError => yearRAGo rest
            | .error e => .error e
          else yearRAGo rest

/-- `year` of `research_assistant.py`, over the three date sources in
precedence order. -/
def yearRA (pp po cr : Option Jv) : Except PyErr Jv := yearRAGo [pp, po, cr]

/-- `int(x)` for the values that occur in date-parts: ints, bools, and
strings of an optionally signed digit run with surrounding whitespace. -/
def pyToInt : Jv → Except Unit Int
  | .int n => .ok n
  | .bool b => .ok (if b then 1 else 0)
  | .str s =>
    let t := stripBoth s.data
    let (sign, ds) : Int × Str :=
      match t with
      | '-' :: r => (-1, r)
      | '+' :: r => (1, r)
      | r => (1, r)
    if ds ≠ [] ∧ ds.all isAsciiDigit then
      .ok (sign * (ds.foldl (fun acc c => acc * 10 + (c.toNat - '0'.toNat)) 0 : Nat))
    else .error ()
  | _ => .error ()

/-- Year scan of `Paper.from_crossref` in
`research_assistant_streamlit_modern.py`: `item.get(key) or {}`, then
`parts = date_info.get("date-parts")`; if `parts` is a nonempty list
whose first element is a nonempty list, try `int(parts[0][0])` and stop
on success (any exception of the conversion is swallowed and the scan
moves on). -/
def yearModernGo : List (Option Jv) → Except PyErr (Option Int)
  | [] => .ok none
  | d :: rest =>
    let di := match d with
      | none => Jv.obj []
      | some v => if jvFalsy v then Jv.obj [] else v
    match pyGetMethod di "date-parts" Jv.null with
    | .error e => .error e
    | .ok parts =>
      match parts with
      | .arr (p0 :: _) =>
        match p0 with
        | .arr (x :: _) =>
          match pyToInt x with
          | .ok n => .ok (some n)
          | .error _ => yearModernGo rest
        | _ => yearModernGo rest
      | _ => yearModernGo rest

/-- `year` of the modern variant. -/
def yearModern (pp po cr : Option Jv) : Except PyErr (Option Int) :=
  yearModernGo [pp, po, cr]

/-- Year scan of `search_crossref` in
`research_assistant_streamlit_light.py`: `di = it.get(key) or {}`, then
`year = di.get("date-parts", [[None]])[0][0]` under a bare `except`
that resets `year` to `None`; the loop stops at the first truthy value
and otherwise keeps the last assigned value. -/
def yearLightGo (year : Jv) : List (Option Jv) → Jv
  | [] => year
  | d :: rest =>
    let di := match d with
      | none => Jv.obj []
      | some v => if jvFalsy v then Jv.obj [] else v
    let y := match
      pyGetMethod di "date-parts" (Jv.arr [Jv.arr [Jv.null]]) >>= fun dp =>
        pySubscript dp (.int 0) >>= fun e0 => pySubscript e0 (.int 0) with
      | .ok w => w
      | .error _ => Jv.null
    if jvFalsy y then yearLightGo y rest else y

/-- `year` of the light variant (`null` meaning `None`). -/
def yearLight (pp po cr : Option Jv) : Jv :=
  yearLightGo Jv.null [pp, po, cr]

/-- `year` as the claim states it: the first element of the first
present, well-formed `date-parts` array among the date sources in fixed
precedence order, where well-formed means a nonempty list whose first
element is a nonempty list starting with an integer; if no source
parses, the year is unset.  (Stated from the specification's words, for
comparison with the code's behaviour.) -/
def yearSpec : List (Option Jv) → Option Int
  | [] => none
  | d :: rest =>
    match d with
    | some (.obj fs) =>
      match objGet fs "date-parts" with
      | some (.arr (.arr (.int n :: _) :: _)) => some n
      | _ => yearSpec rest
    | _ => yearSpec rest

/-- One raw author entry of a Crossref record. -/
structure AuthorRec where
  given : Option String
  family : Option String

/-- `str.strip()` at the `String` level. -/
def pyStripStr (s : String) : String := String.mk (stripBoth s.data)

/-- The display name of one author: non-empty given and family parts
joined with a space. -/
def authorName (a : AuthorRec) : String :=
  String.intercalate " "
    (([pyStripStr (a.given.getD ""), pyStripStr (a.family.getD "")]).filter (fun p => p ≠ ""))

/-- The comma-joined author list, `"Unknown"` when no name resolved. -/
def authorsOf (la : List AuthorRec) : String :=
  let names := (la.map authorName).filter (fun n => n ≠ "")
  if names = [] then "Unknown" else String.intercalate ", " names

/-- `"; ".join(item.get("title", []))` of `research_assistant.py`
(no strip, no placeholder). -/
def titleRA (ts : List String) : String := String.intercalate "; " ts

/-- `"; ".join(...).strip() or "(no title)"` of the streamlit variants. -/
def titleLM (ts : List String) : String :=
  let j := pyStripStr (String.intercalate "; " ts)
  if j = "" then "(no title)" else j

/-- A raw Crossref record, with the fields selected by the query. -/
structure CrItem where
  doi : Option String
  title : List String
  author : List AuthorRec
  containerTitle : List String
  abstract : Option String
  publishedPrint : Option Jv
  publishedOnline : Option Jv
  created : Option Jv

/-- The canonical Paper record (fields of the light dataclass; `year`
keeps the dynamic value assigned by the Python code, `null` = `None`). -/
structure Paper where
  doi : String
  title : String
  authors : String
  journal : String
  year : Jv
  abstract : Option String
  summary : Option String
  read : Bool := false
  addedAt : String := ""

/-- One character of the target script ranges of the filter regex
`[ぁ-んァ-ン一-龯]`. -/
def isJpChar (c : Char) : Bool :=
  (0x3041 ≤ c.toNat && c.toNat ≤ 0x3093) || (0x30A1 ≤ c.toNat && c.toNat ≤ 0x30F3)
    || (0x4E00 ≤ c.toNat && c.toNat ≤ 0x9FAF)

/-- `has_japanese` of the light variant: `re.search` of the range class
succeeds iff some character lies in the ranges. -/
def hasJapanese (s : String) : Bool := s.data.any isJpChar

/-- The Paper built for one raw record in `search_crossref` of the
light variant (summary is attached after the language gate). -/
def mkPaperLight (it : CrItem) : Paper :=
  { doi := pyStripStr (it.doi.getD "")
    title := titleLM it.title
    authors := authorsOf it.author
    journal := pyStripStr (String.intercalate "; " it.containerTitle)
    year := yearLight it.publishedPrint it.publishedOnline it.created
    abstract := it.abstract.map (fun a => if a = "" then a else String.mk (stripHtmlLight a.data))
    summary := none
    read := false
    addedAt := "" }

/-- The string tested by the language gate: `f"{title} {abstract or ''}"`. -/
def jpCheck (title : String) (abstract : Option String) : String :=
  title ++ " " ++ abstract.getD ""

/-- The Paper appended for a record that passes the language gate: the
normalized record with the summary of a truthy abstract attached. -/
def searchKeep (it : CrItem) : Paper :=
  { mkPaperLight it with
    summary := match (mkPaperLight it).abstract with
      | some a => if a = "" then none else some (String.mk (summariseLight a.data 4))
      | none => none }

/-- The record loop of `search_crossref` in the light variant: build
each Paper, drop it when `japanese_only` is set and neither title nor
abstract contains a target-script character, then attach the summary of
a truthy abstract. -/
def searchLight (jp : Bool) (items : List CrItem) : List Paper :=
  items.filterMap (fun it =>
    if jp && !hasJapanese (jpCheck (mkPaperLight it).title (mkPaperLight it).abstract) then
      none
    else some (searchKeep it))

/-- `upsert_paper` stamps `added_at` before the duplicate checks. -/
def timestamped (now : String) (p : Paper) : Paper :=
  if p.addedAt = "" then { p with addedAt := now } else p

/-- `upsert_paper` of `research_assistant_streamlit_light.py`:
reject when the paper has a non-empty DOI already stored; otherwise
reject when the paper has no DOI and any stored paper has the same
title; otherwise append and save.  Returns the new library and whether
the paper was added. -/
def upsertPaper (now : String) (lib : List Paper) (p0 : Paper) : List Paper × Bool :=
  if (timestamped now p0).doi ≠ "" ∧ ∃ x ∈ lib, x.doi = (timestamped now p0).doi then
    (lib, false)
  else if (timestamped now p0).doi = "" ∧ ∃ x ∈ lib, x.title = (timestamped now p0).title then
    (lib, false)
  else (lib ++ [timestamped now p0], true)

/-- The rejection condition exactly as the claim states it: a non-empty
identifier collision, or, for an identifier-less paper, a title
collision against another identifier-less stored paper.  (Stated from
the claim's words, for comparison with the code.) -/
def specRejects (lib : List Paper) (p : Paper) : Prop :=
  (p.doi ≠ "" ∧ ∃ x ∈ lib, x.doi = p.doi)
    ∨ (p.doi = "" ∧ ∃ x ∈ lib, x.doi = "" ∧ x.title = p.title)

/-- No two stored papers share a non-empty identifier. -/
def DoiInv (lib : List Paper) : Prop :=
  lib.Pairwise (fun a b => a.doi = b.doi → a.doi = "")

/-- A library built from scratch by a sequence of `upsert_paper` calls. -/
def libFoldAdd (now : String) (ps : List Paper) : List Paper :=
  ps.foldl (fun l p => (upsertPaper now l p).1) []

/-- Characters replaced by `_` in `sanitize_filename`
(`[\\/:*?"<>|]`, each occurrence separately). -/
def isBadFnChar (c : Char) : Bool :=
  c = '\\' || c = '/' || c = ':' || c = '*' || c = '?' || c = '"'
    || c = '<' || c = '>' || c = '|'

/-- Replace every whitespace run by a single space without trimming
(`re.sub(r"\s+", " ", s)`). -/
def wsRunsGo (prevWs : Bool) : Str → Str
  | [] => []
  | c :: rest =>
    if isWsB c then
      if prevWs then wsRunsGo true rest else ' ' :: wsRunsGo true rest
    else c :: wsRunsGo false rest

/-- `sanitize_filename` of the light variant: strip, remove NUL bytes,
replace path-unsafe characters by `_`, collapse whitespace runs, cut to
180 characters. -/
def sanitizeFilename (name : String) : String :=
  let s1 := stripBoth name.data
  let s2 := s1.filter (fun c => ¬ c = '\x00')
  let s3 := s2.map (fun c => if isBadFnChar c then '_' else c)
  String.mk ((wsRunsGo false s3).take 180)

/-- A stored PDF record of the light variant. -/
structure PDFDocL where
  docId : String
  filename : String
  path : String
  sha256 : String
  pages : Option Int
  summary : Option String
  addedAt : String

/-- The PDF shelf of the light variant: the metadata list plus the
written files (path, bytes). -/
structure StoreL where
  pdfLib : List PDFDocL
  files : List (String × List Nat)

/-- The storage path `PDF_DIR / f"{doc_id}_{safe_name}"` of the light
variant. -/
def pdfPathL (hash : List Nat → String) (fileName : String) (bytes : List Nat) : String :=
  "app_data/pdfs/" ++ (hash bytes).take 12 ++ "_" ++ sanitizeFilename fileName

/-- The PDFDoc record built by `add_pdf` (light) on a hash miss. -/
def pdfDocNewL (hash : List Nat → String) (now fileName : String) (bytes : List Nat)
    (summary : String) (pages : Option Int) : PDFDocL :=
  { docId := (hash bytes).take 12, filename := sanitizeFilename fileName
    path := pdfPathL hash fileName bytes, sha256 := hash bytes
    pages := pages, summary := some summary, addedAt := now }

/-- `add_pdf` of `research_assistant_streamlit_light.py`: sanitize the
name, hash the bytes; if a document with that SHA-256 exists return it
unchanged; otherwise write the bytes under `{doc_id}_{safe_name}`,
append the record and save.  The hash function stands for SHA-256. -/
def addPdfLight (hash : List Nat → String) (now : String) (st : StoreL)
    (fileName : String) (bytes : List Nat) (summary : String) (pages : Option Int) :
    PDFDocL × StoreL :=
  match st.pdfLib.find? (fun d => d.sha256 == hash bytes) with
  | some d => (d, st)
  | none =>
    (pdfDocNewL hash now fileName bytes summary pages,
     { pdfLib := st.pdfLib ++ [pdfDocNewL hash now fileName bytes summary pages]
       files := st.files ++ [(pdfPathL hash fileName bytes, bytes)] })

/-- Characters kept by the modern filename sanitizer
(`[^0-9A-Za-zぁ-んァ-ン一-龯._\- ]+` is replaced by `_`). -/
def allowedModernChar (c : Char) : Bool :=
  isAsciiAlpha c || isAsciiDigit c || c = '.' || c = '_' || c = '-' || c = ' '
    || (0x3041 ≤ c.toNat && c.toNat ≤ 0x3093)
    || (0x30A1 ≤ c.toNat && c.toNat ≤ 0x30F3)
    || (0x4E00 ≤ c.toNat && c.toNat ≤ 0x9FAF)

/-- Replace every maximal disallowed run by one `_`. -/
def badRunsGo (prevBad : Bool) : Str → Str
  | [] => []
  | c :: rest =>
    if allowedModernChar c then c :: badRunsGo false rest
    else if prevBad then badRunsGo true rest
    else '_' :: badRunsGo true rest

/-- The modern variant's filename sanitizer. -/
def sanitizeNameModern (name : String) : String :=
  String.mk (badRunsGo false name.data)

/-- A stored PDF record of the modern variant (`id` is the SHA-256). -/
structure PDFDocM where
  id : String
  filename : String
  path : String
  summary : Option String

/-- The PDF shelf of the modern variant; `summaryRuns` counts the
summarization calls made. -/
structure StoreM where
  pdfLib : List PDFDocM
  files : List (String × List Nat)
  summaryRuns : Nat

/-- The output path `{pid[:12]}_{safe_name}` under the upload
directory of the modern variant. -/
def pdfPathM (hash : List Nat → String) (fileName : String) (bytes : List Nat) : String :=
  "pdf_uploads/" ++ (hash bytes).take 12 ++ "_" ++ sanitizeNameModern fileName

/-- The PDFDoc record built by `add_pdf` (modern) on a hash miss: note
that the display name is the raw upload name. -/
def pdfDocNewM (hash : List Nat → String) (summarize : List Nat → String)
    (fileName : String) (bytes : List Nat) : PDFDocM :=
  { id := hash bytes, filename := fileName, path := pdfPathM hash fileName bytes
    summary := some (summarize bytes) }

/-- `add_pdf` of `research_assistant_streamlit_modern.py`: hash first;
if a document with the hash exists do nothing; otherwise write the
bytes, summarize once, append the record (keeping the raw upload name
as display name) and save. -/
def addPdfModern (hash : List Nat → String) (summarize : List Nat → String)
    (st : StoreM) (fileName : String) (bytes : List Nat) : StoreM :=
  if st.pdfLib.any (fun d => d.id == hash bytes) then st
  else
    { pdfLib := st.pdfLib ++ [pdfDocNewM hash summarize fileName bytes]
      files := st.files ++ [(pdfPathM hash fileName bytes, bytes)]
      summaryRuns := st.summaryRuns + 1 }

/-- `load_library` of `research_assistant.py`: a missing or unreadable
file yields `[]`; otherwise the records are decoded inside one `try`,
so a single undecodable record makes the whole load return `[]`.
`dec` stands for `Paper(**item)`, `none` meaning it raises. -/
def loadRA (dec : α → Option Paper) : Option (List α) → List Paper
  | none => []
  | some recs =>
    if recs.all (fun r => (dec r).isSome) then recs.filterMap dec else []

/-- `load_library` of the streamlit variants: a missing or unreadable
file yields `[]`; each record is decoded under its own `try`, so
undecodable records are skipped individually. -/
def loadLightLib (dec : α → Option Paper) : Option (List α) → List Paper
  | none => []
  | some recs => recs.filterMap dec

/-- A concrete well-formed Paper, used as test data. -/
def samplePaper : Paper :=
  { doi := "10.1/x", title := "T", authors := "A", journal := "J",
    year := Jv.null, abstract := none, summary := none, read := false, addedAt := "" }

/-- A decoder over `Bool` records: `true` decodes to `samplePaper`,
`false` is malformed. -/
def decBoolPaper : Bool → Option Paper := fun b => if b then some samplePaper else none

/-- The rejection condition actually implemented by `upsert_paper`: a
non-empty DOI already stored, or, for a DOI-less paper, a title
collision against any stored paper (with or without DOI). -/
def codeRejects (lib : List Paper) (p : Paper) : Prop :=
  (p.doi ≠ "" ∧ ∃ x ∈ lib, x.doi = p.doi)
    ∨ (p.doi = "" ∧ ∃ x ∈ lib, x.title = p.title)

/-- A stored paper carrying a non-empty identifier and title "T". -/
def paperWithDoi : Paper :=
  { doi := "10.1/x", title := "T", authors := "A", journal := "",
    year := Jv.null, abstract := none, summary := none, read := false, addedAt := "t0" }

/-- An identifier-less paper with the same title "T". -/
def paperNoDoi : Paper :=
  { doi := "", title := "T", authors := "B", journal := "",
    year := Jv.null, abstract := none, summary := none, read := false, addedAt := "t0" }

/-- A stand-in for SHA-256 in concrete instantiations. -/
def mockHash (b : List Nat) : String := toString b

/-- A `published-print` value that is present but lacks `date-parts`. -/
def ppMissingParts : Option Jv := some (Jv.obj [("media", Jv.str "print")])

/-- A well-formed `published-online` value with year 2020. -/
def poOnline2020 : Option Jv := some (Jv.obj [("date-parts", Jv.arr [Jv.arr [Jv.int 2020]])])



/-- No substring matches the tag pattern `<[^>]+>`: every `'<'` is
immediately followed by `'>'` or has no `'>'` anywhere after it. -/
def noTagB : Str → Bool
  | [] => true
  | c :: rest =>
    if c = '<' then
      (!(decide ('>' ∈ rest)) || decide (rest.head? = some '>')) && noTagB rest
    else noTagB rest

/-- The suffix starts with a completed entity body `[a-zA-Z]+;`. -/
def entHeadB (s : Str) : Bool :=
  !(decide (s.takeWhile isAsciiAlpha = [])) &&
    decide ((s.dropWhile isAsciiAlpha).head? = some ';')

/-- No substring matches the entity pattern `&[a-zA-Z]+;`. -/
def noEntB : Str → Bool
  | [] => true
  | c :: rest => if c = '&' then !entHeadB rest && noEntB rest else noEntB rest

/-- Collapse-normal suffix: `prevSpace` says the previous character was
the separating space; rejects leading/trailing/duplicated spaces and
every whitespace character other than a plain space. -/
def collNormB (prevSpace : Bool) : Str → Bool
  | [] => !prevSpace
  | c :: rest =>
    if c = ' ' then !prevSpace && collNormB true rest
    else if isWsB c then false
    else collNormB false rest

/-- A string equal to its own whitespace collapse-and-trim. -/
def collNorm (s : Str) : Bool :=
  match s with
  | [] => true
  | _ => collNormB true s

/-! ## Basic lemmas about the text primitives -/

theorem splitSentGo_ne_nil (term : Char → Bool) :
    ∀ (s : Str) (skip : Bool) (prev : Option Char) (cur : Str),
      splitSentGo term skip prev cur s ≠ [] := by
  intro s
  induction s with
  | nil => intro skip prev cur; simp [splitSentGo]
  | cons c rest ih =>
    intro skip prev cur
    unfold splitSentGo
    split
    · split
      · exact ih true (some c) cur
      · exact ih false (some c) [c]
    · split
      · simp
      · exact ih false (some c) (c :: cur)

theorem splitSentRA_ne_nil (s : Str) : splitSentRA s ≠ [] :=
  splitSentGo_ne_nil termRA s false none []

theorem pyTake_zero (l : List α) : pyTake 0 l = [] := by
  simp [pyTake]

theorem pyTake_sublist (k : Int) (l : List α) : (pyTake k l).Sublist l := by
  unfold pyTake
  split <;> exact List.take_sublist _ l

/-! ## C5: zero and empty boundary behaviour of the summarizers -/

theorem summariseRA_zero (t : Str) : summariseRA t 0 = [] := by
  unfold summariseRA
  rw [if_neg]
  · simp [raTop, pyTake_zero, pySortK, joinSpace]
  · have h : 0 < (splitSentRA t).length :=
      List.length_pos.mpr (splitSentRA_ne_nil t)
    omega

theorem summariseLight_zero (t : Str) : summariseLight t 0 = [] := by
  unfold summariseLight
  split
  · rfl
  · split
    · rename_i hraw
      have : lightSentencesOf (collapseWs t) = [] := by
        have := List.length_eq_zero.mp (by omega :
          (lightSentencesOf (collapseWs t)).length = 0)
        exact this
      rw [this]; rfl
    · simp [lightTop, pyTake_zero, pySortK, joinSpace]

theorem summariseRA_empty_input (k : Int) (hk : 0 < k) : summariseRA [] k = [] := by
  unfold summariseRA
  rw [if_pos]
  have : splitSentRA ([] : Str) = [[]] := rfl
  rw [this]
  simp only [List.length_singleton]
  omega

theorem collapseWs_of_all_ws (w : Str) (hw : w.all isWsB) : collapseWs w = [] := by
  unfold collapseWs
  have : w.dropWhile isWsB = [] := by
    rw [List.dropWhile_eq_nil_iff]
    intro x hx
    exact List.all_eq_true.mp hw x hx
  rw [this]; rfl

theorem summariseLight_ws_input (w : Str) (k : Int) (hw : w.all isWsB) :
    summariseLight w k = [] := by
  unfold summariseLight
  rw [if_pos (collapseWs_of_all_ws w hw)]

/-! ## C5: the boundary claim, settled -/

/-- C5 (amended): `summarize(text, 0)` is the empty string in both
implementations; `summarize("", k)` is empty for `k > 0` in
`research_assistant.py`; whitespace-only input yields the empty string
in the light implementation (for every bound).  Negative bounds are not
treated as 0 (Python slicing keeps all but the last `|k|` scored
sentences), and `research_assistant.py` returns whitespace-only input
unchanged through the identity short-circuit. -/
theorem summarise_boundary_cases :
    (∀ t : Str, summariseRA t 0 = [] ∧ summariseLight t 0 = []) ∧
    (∀ k : Int, 0 < k → summariseRA [] k = []) ∧
    (∀ (w : Str) (k : Int), w.all isWsB → summariseLight w k = []) :=
  ⟨fun t => ⟨summariseRA_zero t, summariseLight_zero t⟩,
   fun k hk => summariseRA_empty_input k hk,
   fun w k hw => summariseLight_ws_input w k hw⟩

/-- Witness for `summarise_boundary_cases` at concrete inputs. -/
theorem summarise_boundary_cases_witness :
    summariseRA "x. y.".toList 0 = [] ∧ summariseRA [] 2 = [] ∧
      summariseLight " \t".toList 3 = [] :=
  ⟨(summarise_boundary_cases.1 "x. y.".toList).1,
   summarise_boundary_cases.2.1 2 (by decide),
   summarise_boundary_cases.2.2 " \t".toList 3 (by decide)⟩

/-- C5 (counterexample): with bound `-1` the Python slice `[:-1]` keeps
one sentence, so `summarise` is non-empty for a non-positive bound; and
a whitespace-only input with positive bound is returned unchanged (non
empty) by `research_assistant.py`. -/
theorem summarise_boundary_counterexample :
    summariseRA "a. b.".toList (-1) = "a.".toList ∧
    summariseRA " ".toList 2 = " ".toList ∧
    ¬ "a.".toList = ([] : Str) ∧ ¬ " ".toList = ([] : Str) := by
  refine ⟨by decide, by decide, by decide, by decide⟩

/-! ## C4: the identity short-circuit -/

/-- C4 (amended): when the sentence count is at most the bound,
`research_assistant.py` returns its input byte-for-byte, while the
light implementation returns the cleaned sentences (whitespace
collapsed, fragments stripped) rejoined with single spaces — not the
input byte-for-byte. -/
theorem summarise_identity_cases :
    (∀ (t : Str) (k : Int), ((splitSentRA t).length : Int) ≤ k → summariseRA t k = t) ∧
    (∀ (t : Str) (k : Int), ((lightSentences t).length : Int) ≤ k →
      summariseLight t k = joinSpace (lightSentences t)) := by
  constructor
  · intro t k h
    unfold summariseRA
    rw [if_pos h]
  · intro t k h
    unfold summariseLight
    by_cases hc : collapseWs t = []
    · rw [if_pos hc]
      have hnil : lightSentences t = [] := by
        unfold lightSentences
        rw [hc]
        rfl
      rw [hnil]
      rfl
    · rw [if_neg hc, if_pos (by exact h)]
      rfl

/-- Witness for `summarise_identity_cases` at concrete inputs. -/
theorem summarise_identity_cases_witness :
    summariseRA "Hi there. Ok.".toList 3 = "Hi there. Ok.".toList ∧
    summariseLight "Hi   there.  Ok.".toList 3 = "Hi there. Ok.".toList := by
  constructor
  · exact summarise_identity_cases.1 _ 3 (by decide)
  · have h := summarise_identity_cases.2 "Hi   there.  Ok.".toList 3 (by decide)
    rw [h]
    decide

/-- C4 (counterexample): an input below the bound whose whitespace is
not already normalized is changed by the light implementation, so the
return is not byte-for-byte identical and "rejoined with single spaces"
is not equivalent to identity. -/
theorem summariseLight_not_bytewise_counterexample :
    ((lightSentences "a.  b.".toList).length : Int) ≤ 3 ∧
    summariseLight "a.  b.".toList 3 = "a. b.".toList ∧
    ¬ summariseLight "a.  b.".toList 3 = "a.  b.".toList := by
  refine ⟨by decide, by decide, by decide⟩

/-! ## C9: the title placeholder -/

/-- C9 (amended): in the streamlit implementations the produced title is
never the empty string: the title fragments are joined with "; " and
stripped, and an empty result becomes the placeholder `"(no title)"`
(note the parentheses); a record with several empty title fragments
yields the bare separators (e.g. `";"`), not the placeholder.
`research_assistant.py` applies no placeholder at all: a record with no
title fragments yields the empty string. -/
theorem title_placeholder_behaviour :
    (∀ ts : List String, ¬ titleLM ts = "") ∧ titleLM [] = "(no title)" ∧
      titleLM [""] = "(no title)" ∧ titleLM ["", ""] = ";" ∧ titleRA [] = "" := by
  refine ⟨?_, by decide, by decide, by decide, by decide⟩
  intro ts
  show ¬ (if pyStripStr ("; ".intercalate ts) = "" then "(no title)"
    else pyStripStr ("; ".intercalate ts)) = ""
  split
  · decide
  · assumption

/-- C9 (counterexample): `research_assistant.py` gives a record with no
title fragments an empty title, not a non-empty placeholder. -/
theorem titleRA_empty_counterexample :
    titleRA [] = "" ∧ ¬ ("" : String) = "no title" := by
  refine ⟨by decide, by decide⟩

/-! ## C6: loading with malformed records -/

/-- C6 (amended): a missing or unreadable library file loads as the
empty collection in every implementation, and in the streamlit
implementations malformed records are skipped individually (the load
returns exactly the well-formed remainder); but in
`research_assistant.py` all records are decoded inside one `try`, so
one malformed record makes the whole load return the empty list. -/
theorem load_malformed_behaviour :
    ∀ (α : Type) (dec : α → Option Paper) (recs : List α),
      loadLightLib dec none = [] ∧ loadLightLib dec (some recs) = recs.filterMap dec ∧
      loadRA dec none = [] ∧
      ((∀ r ∈ recs, (dec r).isSome) → loadRA dec (some recs) = recs.filterMap dec) ∧
      ((∃ r ∈ recs, dec r = none) → loadRA dec (some recs) = []) := by
  intro α dec recs
  refine ⟨rfl, rfl, rfl, ?_, ?_⟩
  · intro h
    show (if recs.all (fun r => (dec r).isSome) then recs.filterMap dec else []) = _
    rw [if_pos]
    rw [List.all_eq_true]
    exact h
  · rintro ⟨r, hr, hnone⟩
    show (if recs.all (fun r => (dec r).isSome) then recs.filterMap dec else []) = _
    rw [if_neg]
    intro hall
    have h := List.all_eq_true.mp hall r hr
    rw [hnone] at h
    exact absurd h (by decide)

/-- Witness for `load_malformed_behaviour` at concrete record lists. -/
theorem load_malformed_behaviour_witness :
    loadRA decBoolPaper (some [false, true]) = [] ∧
    loadRA decBoolPaper (some [true]) = [samplePaper] := by
  constructor
  · exact (load_malformed_behaviour Bool decBoolPaper [false, true]).2.2.2.2
      ⟨false, by decide, rfl⟩
  · have h := (load_malformed_behaviour Bool decBoolPaper [true]).2.2.2.1
      (by
        intro r hr
        rw [List.mem_singleton] at hr
        subst hr
        rfl)
    rw [h]
    rfl

/-- C6 (counterexample): with one well-formed and one malformed record,
`load_library` of `research_assistant.py` returns `[]` rather than the
well-formed remainder. -/
theorem loadRA_whole_load_counterexample :
    loadRA decBoolPaper (some [true, false]) = [] ∧
    List.filterMap decBoolPaper [true, false] = [samplePaper] ∧
    ¬ ([samplePaper] : List Paper) = [] := by
  refine ⟨rfl, rfl, by simp⟩

/-! ## C7: the year precedence scan -/

/-- C7 (code bug): on a record whose `published-print` entry is present
but lacks the `date-parts` key, `Paper.from_crossref` of
`research_assistant.py` raises an uncaught `KeyError` — its `except`
clause only catches `IndexError` and `TypeError`, and the subscript
`date_info["date-parts"]` does not reuse the `.get` default — instead
of falling through to the well-formed `published-online` date as the
claim (and the other two implementations) prescribe. -/
theorem yearRA_keyError_bug :
    yearRA ppMissingParts poOnline2020 none = Except.error PyErr.keyError ∧
    yearModern ppMissingParts poOnline2020 none = Except.ok (some 2020) ∧
    yearLight ppMissingParts poOnline2020 none = Jv.int 2020 ∧
    yearSpec [ppMissingParts, poOnline2020, none] = some 2020 :=
  ⟨rfl, rfl, rfl, rfl⟩

/-! ## C1: the add/dedup characterization -/

theorem upsert_preserves_doiInv (now : String) (lib : List Paper) (p : Paper)
    (h : DoiInv lib) : DoiInv (upsertPaper now lib p).1 := by
  unfold upsertPaper
  by_cases h1 : (timestamped now p).doi ≠ "" ∧ ∃ x ∈ lib, x.doi = (timestamped now p).doi
  · rw [if_pos h1]
    exact h
  · rw [if_neg h1]
    by_cases h2 : (timestamped now p).doi = "" ∧ ∃ x ∈ lib, x.title = (timestamped now p).title
    · rw [if_pos h2]
      exact h
    · rw [if_neg h2]
      show DoiInv (lib ++ [timestamped now p])
      unfold DoiInv
      rw [List.pairwise_append]
      refine ⟨h, List.pairwise_singleton _ _, ?_⟩
      intro a ha b hb
      rw [List.mem_singleton] at hb
      subst hb
      intro hdoi
      by_cases hq : (timestamped now p).doi = ""
      · rw [hdoi]
        exact hq
      · exact absurd ⟨hq, a, ha, hdoi⟩ h1

theorem foldAdd_doiInv_aux (now : String) :
    ∀ (ps lib : List Paper), DoiInv lib →
      DoiInv (ps.foldl (fun l p => (upsertPaper now l p).1) lib) := by
  intro ps
  induction ps with
  | nil => intro lib h; exact h
  | cons p ps ih =>
    intro lib h
    exact ih _ (upsert_preserves_doiInv now lib p h)

/-- C1 (amended): `upsert_paper` rejects (returning the library
unmutated) exactly when the new Paper has a non-empty identifier equal
to a stored one, or has no identifier and ANY stored Paper — whether or
not it has an identifier itself — has exactly the same title; in every
other case the (timestamped) Paper is appended.  Consequently any
library built from a sequence of adds never contains two Papers with
the same non-empty identifier. -/
theorem upsert_characterization :
    (∀ (now : String) (lib : List Paper) (p : Paper),
      (upsertPaper now lib p = (lib, false) ↔ codeRejects lib (timestamped now p)) ∧
      (¬ codeRejects lib (timestamped now p) →
        upsertPaper now lib p = (lib ++ [timestamped now p], true))) ∧
    (∀ (now : String) (ps : List Paper), DoiInv (libFoldAdd now ps)) := by
  constructor
  · intro now lib p
    unfold upsertPaper codeRejects
    by_cases h1 : (timestamped now p).doi ≠ "" ∧ ∃ x ∈ lib, x.doi = (timestamped now p).doi
    · rw [if_pos h1]
      exact ⟨⟨fun _ => Or.inl h1, fun _ => rfl⟩, fun hn => absurd (Or.inl h1) hn⟩
    · rw [if_neg h1]
      by_cases h2 :
          (timestamped now p).doi = "" ∧ ∃ x ∈ lib, x.title = (timestamped now p).title
      · rw [if_pos h2]
        exact ⟨⟨fun _ => Or.inr h2, fun _ => rfl⟩, fun hn => absurd (Or.inr h2) hn⟩
      · rw [if_neg h2]
        refine ⟨⟨fun he => ?_, fun hr => ?_⟩, fun _ => rfl⟩
        · exact absurd (congrArg Prod.snd he) (by simp)
        · rcases hr with h | h
          · exact absurd h h1
          · exact absurd h h2
  · intro now ps
    exact foldAdd_doiInv_aux now ps [] List.Pairwise.nil

/-- Witness for `upsert_characterization`: an identifier-less paper is
appended to an empty library, and a two-step build keeps the
identifier invariant. -/
theorem upsert_characterization_witness :
    upsertPaper "t1" [] paperNoDoi = ([paperNoDoi], true) ∧
    DoiInv (libFoldAdd "t1" [paperWithDoi, paperNoDoi]) := by
  constructor
  · have h := (upsert_characterization.1 "t1" [] paperNoDoi).2
      (by rintro (⟨_, x, hx, _⟩ | ⟨_, x, hx, _⟩) <;> exact absurd hx (List.not_mem_nil x))
    rw [h]
    rfl
  · exact upsert_characterization.2 "t1" [paperWithDoi, paperNoDoi]

/-- C1 (counterexample): the stored paper has the non-empty identifier
"10.1/x", the incoming paper has no identifier but the same title "T";
the claim says it must be appended (no identifier-less stored paper
shares the title), yet `upsert_paper` rejects it, because its title
check ranges over all stored papers. -/
theorem upsert_title_collision_counterexample :
    upsertPaper "t1" [paperWithDoi] paperNoDoi = ([paperWithDoi], false) ∧
    ¬ specRejects [paperWithDoi] paperNoDoi := by
  constructor
  · rfl
  · rintro (⟨hne, x, hx, hdoi⟩ | ⟨hemp, x, hx, hdoi, ht⟩)
    · exact hne rfl
    · rw [List.mem_singleton] at hx
      subst hx
      exact absurd hdoi (by decide)

/-! ## C2: idempotent PDF upload -/

theorem find?_append_of_none {p : α → Bool} {l₁ l₂ : List α} (h : l₁.find? p = none) :
    (l₁ ++ l₂).find? p = l₂.find? p := by
  induction l₁ with
  | nil => rfl
  | cons a l ih =>
    by_cases hp : p a
    · rw [List.find?_cons_of_pos _ hp] at h
      exact absurd h (by simp)
    · rw [List.find?_cons_of_neg _ hp] at h
      rw [List.cons_append, List.find?_cons_of_neg _ hp]
      exact ih h

/-- C2 (confirmed): uploading the same bytes twice, even under
different display names, leaves exactly one stored record and exactly
one stored file, keyed by the content hash computed first; the second
upload returns the first record unchanged (light) resp. leaves the
store untouched (modern), writes nothing, and the modern variant —
where summarization lives inside `add_pdf` — does not run
summarization again (`summaryRuns` increments only once).  The display
name is the one from the first upload. -/
theorem addPdf_idempotent :
    (∀ (hash : List Nat → String) (now1 now2 n1 n2 sum1 sum2 : String) (st : StoreL)
       (bytes : List Nat) (pg1 pg2 : Option Int),
      (∀ d ∈ st.pdfLib, ¬ d.sha256 = hash bytes) →
      ∀ d1 st1, addPdfLight hash now1 st n1 bytes sum1 pg1 = (d1, st1) →
        addPdfLight hash now2 st1 n2 bytes sum2 pg2 = (d1, st1) ∧
        d1.filename = sanitizeFilename n1 ∧
        st1.pdfLib = st.pdfLib ++ [d1] ∧
        st1.pdfLib.filter (fun d => d.sha256 == hash bytes) = [d1] ∧
        st1.files = st.files ++ [(d1.path, bytes)]) ∧
    (∀ (hash summarize : List Nat → String) (st : StoreM) (n1 n2 : String)
       (bytes : List Nat),
      (∀ d ∈ st.pdfLib, ¬ d.id = hash bytes) →
      addPdfModern hash summarize (addPdfModern hash summarize st n1 bytes) n2 bytes =
        addPdfModern hash summarize st n1 bytes ∧
      (addPdfModern hash summarize st n1 bytes).pdfLib =
        st.pdfLib ++ [pdfDocNewM hash summarize n1 bytes] ∧
      (addPdfModern hash summarize st n1 bytes).files =
        st.files ++ [(pdfPathM hash n1 bytes, bytes)] ∧
      (addPdfModern hash summarize st n1 bytes).summaryRuns = st.summaryRuns + 1) := by
  constructor
  · intro hash now1 now2 n1 n2 sum1 sum2 st bytes pg1 pg2 hmiss d1 st1 heq
    have hnone : st.pdfLib.find? (fun d => d.sha256 == hash bytes) = none := by
      rw [List.find?_eq_none]
      intro d hd
      simpa using hmiss d hd
    unfold addPdfLight at heq
    rw [hnone] at heq
    obtain ⟨hd1, hst1⟩ := Prod.mk.injEq .. ▸ heq
    have hfind1 :
        st1.pdfLib.find? (fun d => d.sha256 == hash bytes) =
          some (pdfDocNewL hash now1 n1 bytes sum1 pg1) := by
      rw [← hst1]
      show ((st.pdfLib ++ [pdfDocNewL hash now1 n1 bytes sum1 pg1]).find?
        (fun d => d.sha256 == hash bytes)) = _
      rw [find?_append_of_none hnone]
      rw [List.find?_cons_of_pos _ (by simp [pdfDocNewL])]
    refine ⟨?_, ?_, ?_, ?_, ?_⟩
    · unfold addPdfLight
      rw [hfind1, ← hd1]
    · rw [← hd1]
      rfl
    · rw [← hst1, ← hd1]
    · rw [← hst1, ← hd1]
      rw [List.filter_append]
      rw [List.filter_eq_nil_iff.mpr (by intro d hd; simpa using hmiss d hd)]
      simp [pdfDocNewL]
    · rw [← hst1, ← hd1]
      rfl
  · intro hash summarize st n1 n2 bytes hmiss
    have hany : st.pdfLib.any (fun d => d.id == hash bytes) = false := by
      rw [List.any_eq_false]
      intro d hd
      simpa using hmiss d hd
    have h1 : addPdfModern hash summarize st n1 bytes =
        { pdfLib := st.pdfLib ++ [pdfDocNewM hash summarize n1 bytes]
          files := st.files ++ [(pdfPathM hash n1 bytes, bytes)]
          summaryRuns := st.summaryRuns + 1 } := by
      unfold addPdfModern
      rw [hany]
      rfl
    refine ⟨?_, by rw [h1], by rw [h1], by rw [h1]⟩
    rw [h1]
    unfold addPdfModern
    rw [if_pos]
    rw [List.any_eq_true]
    exact ⟨pdfDocNewM hash summarize n1 bytes, by simp, by simp [pdfDocNewM]⟩

/-- Witness for `addPdf_idempotent` at a concrete store and bytes. -/
theorem addPdf_idempotent_witness :
    (addPdfLight mockHash "t2" (addPdfLight mockHash "t1" ⟨[], []⟩ "a.pdf" [1, 2] "s1" none).2
        "b.pdf" [1, 2] "s2" none).2 =
      (addPdfLight mockHash "t1" ⟨[], []⟩ "a.pdf" [1, 2] "s1" none).2 ∧
    (addPdfModern mockHash toString (addPdfModern mockHash toString ⟨[], [], 0⟩ "a.pdf" [1, 2])
        "b.pdf" [1, 2]) = addPdfModern mockHash toString ⟨[], [], 0⟩ "a.pdf" [1, 2] ∧
    (addPdfModern mockHash toString ⟨[], [], 0⟩ "a.pdf" [1, 2]).summaryRuns = 1 := by
  refine ⟨?_, ?_, ?_⟩
  · have h := (addPdf_idempotent.1 mockHash "t1" "t2" "a.pdf" "b.pdf" "s1" "s2" ⟨[], []⟩
      [1, 2] none none (by intro d hd; exact absurd hd (List.not_mem_nil d))
      (addPdfLight mockHash "t1" ⟨[], []⟩ "a.pdf" [1, 2] "s1" none).1
      (addPdfLight mockHash "t1" ⟨[], []⟩ "a.pdf" [1, 2] "s1" none).2 rfl).1
    rw [h]
  · exact (addPdf_idempotent.2 mockHash toString ⟨[], [], 0⟩ "a.pdf" "b.pdf" [1, 2]
      (by intro d hd; exact absurd hd (List.not_mem_nil d))).1
  · exact (addPdf_idempotent.2 mockHash toString ⟨[], [], 0⟩ "a.pdf" "b.pdf" [1, 2]
      (by intro d hd; exact absurd hd (List.not_mem_nil d))).2.2.2

/-! ## C10: the Japanese-only filter -/

/-- C10 (confirmed): with the target-script filter enabled, the search
result is exactly the unfiltered result restricted to the Papers whose
title-plus-abstract check string contains a target-script character
(hiragana, katakana, or a CJK ideograph of the pattern's ranges); in
particular every returned Paper contains such a character, records
without one are dropped, and the kept records are not altered by the
filter. -/
theorem japanese_filter_characterization :
    ∀ items : List CrItem,
      searchLight true items =
        (searchLight false items).filter
          (fun p => hasJapanese (jpCheck p.title p.abstract)) ∧
      ∀ p ∈ searchLight true items, ∃ c ∈ (jpCheck p.title p.abstract).data, isJpChar c := by
  intro items
  constructor
  · induction items with
    | nil => rfl
    | cons it its ih =>
      unfold searchLight at ih ⊢
      rw [List.filterMap_cons, List.filterMap_cons]
      cases hj : hasJapanese (jpCheck (mkPaperLight it).title (mkPaperLight it).abstract)
      · rw [if_pos (by simp [hj]), if_neg (by simp)]
        rw [List.filter_cons_of_neg]
        · exact ih
        · show ¬ hasJapanese (jpCheck (searchKeep it).title (searchKeep it).abstract) = true
          have : jpCheck (searchKeep it).title (searchKeep it).abstract =
              jpCheck (mkPaperLight it).title (mkPaperLight it).abstract := rfl
          rw [this, hj]
          simp
      · rw [if_neg (by simp [hj]), if_neg (by simp)]
        rw [List.filter_cons_of_pos]
        · rw [ih]
        · show hasJapanese (jpCheck (searchKeep it).title (searchKeep it).abstract) = true
          exact hj
  · intro p hp
    unfold searchLight at hp
    rw [List.mem_filterMap] at hp
    obtain ⟨it, hit, heq⟩ := hp
    by_cases hj :
        (true && !hasJapanese (jpCheck (mkPaperLight it).title (mkPaperLight it).abstract))
          = true
    · rw [if_pos hj] at heq
      exact absurd heq (by simp)
    · rw [if_neg hj] at heq
      have hkeep := Option.some.inj heq
      subst hkeep
      have hJ : hasJapanese (jpCheck (mkPaperLight it).title (mkPaperLight it).abstract)
          = true := by
        simpa using hj
      have hmem := List.any_eq_true.mp hJ
      obtain ⟨c, hc, hisJp⟩ := hmem
      exact ⟨c, hc, hisJp⟩

/-! ## C3: order preservation of the selected sentences -/

theorem insKey_perm (key : α → Int) (x : α) (l : List α) :
    (insKey key x l).Perm (x :: l) := by
  induction l with
  | nil => exact List.Perm.refl _
  | cons y ys ih =>
    unfold insKey
    split
    · exact (ih.cons y).trans (List.Perm.swap x y ys)
    · exact List.Perm.refl _

theorem pySortK_perm (key : α → Int) (l : List α) : (pySortK key l).Perm l := by
  induction l with
  | nil => exact List.Perm.refl _
  | cons x xs ih => exact (insKey_perm key x (pySortK key xs)).trans (ih.cons x)

theorem mem_insKey {key : α → Int} {x z : α} {l : List α} (h : z ∈ insKey key x l) :
    z = x ∨ z ∈ l := by
  have := (insKey_perm key x l).mem_iff.mp h
  simpa using this

theorem insKey_pairwise {key : α → Int} {x : α} {l : List α}
    (h : l.Pairwise (fun a b => key a ≤ key b)) :
    (insKey key x l).Pairwise (fun a b => key a ≤ key b) := by
  induction l with
  | nil => simp [insKey]
  | cons y ys ih =>
    rw [List.pairwise_cons] at h
    obtain ⟨hy, hys⟩ := h
    unfold insKey
    split
    · rename_i hlt
      rw [List.pairwise_cons]
      refine ⟨?_, ih hys⟩
      intro z hz
      rcases mem_insKey hz with rfl | hz'
      · exact le_of_lt hlt
      · exact hy z hz'
    · rename_i hnlt
      rw [List.pairwise_cons]
      constructor
      · intro z hz
        rcases List.mem_cons.mp hz with rfl | hz'
        · exact le_of_not_lt hnlt
        · exact le_trans (le_of_not_lt hnlt) (hy z hz')
      · exact List.pairwise_cons.mpr ⟨hy, hys⟩

theorem pySortK_pairwise (key : α → Int) (l : List α) :
    (pySortK key l).Pairwise (fun a b => key a ≤ key b) := by
  induction l with
  | nil => simp [pySortK]
  | cons x xs ih => exact insKey_pairwise ih

theorem pyEnumGo_mem {l : List α} :
    ∀ {n : Nat} {p : Nat × α}, p ∈ pyEnumGo n l →
      n ≤ p.1 ∧ l.get? (p.1 - n) = some p.2 := by
  induction l with
  | nil => intro n p hp; exact absurd hp (List.not_mem_nil p)
  | cons x xs ih =>
    intro n p hp
    rw [pyEnumGo, List.mem_cons] at hp
    rcases hp with rfl | hp
    · exact ⟨le_refl n, by simp⟩
    · obtain ⟨hn, hget⟩ := ih hp
      refine ⟨le_trans (Nat.le_succ n) hn, ?_⟩
      have heq : p.1 - n = (p.1 - (n + 1)) + 1 := by omega
      rw [heq]
      simpa using hget

theorem pyEnumGo_pairwise (l : List α) :
    ∀ n, (pyEnumGo n l).Pairwise (fun p q => p.1 < q.1) := by
  induction l with
  | nil => intro n; simp [pyEnumGo]
  | cons x xs ih =>
    intro n
    rw [pyEnumGo, List.pairwise_cons]
    refine ⟨?_, ih (n + 1)⟩
    intro q hq
    have h := (pyEnumGo_mem hq).1
    show n < q.1
    omega

theorem shifted_get {rs : List α} {x : α} {l : List (Nat × α)}
    (hget : ∀ p ∈ l, (x :: rs).get? p.1 = some p.2)
    (hpos : ∀ p ∈ l, 0 < p.1) :
    ∀ p ∈ l.map (fun q => (q.1 - 1, q.2)), rs.get? p.1 = some p.2 := by
  intro p hp
  rw [List.mem_map] at hp
  obtain ⟨q, hq, rfl⟩ := hp
  have hg := hget q hq
  have hp1 := hpos q hq
  show rs.get? (q.1 - 1) = some q.2
  cases hq1 : q.1 with
  | zero => omega
  | succ m =>
    rw [hq1] at hg
    simpa using hg

theorem shifted_pairwise {l : List (Nat × α)}
    (hpw : l.Pairwise (fun p q => p.1 < q.1)) (hpos : ∀ p ∈ l, 0 < p.1) :
    (l.map (fun q => (q.1 - 1, q.2))).Pairwise (fun p q => p.1 < q.1) := by
  rw [List.pairwise_map]
  refine List.Pairwise.imp_of_mem ?_ hpw
  intro a b ha hb hab
  have := hpos a ha
  show a.1 - 1 < b.1 - 1
  omega

theorem map_snd_sublist_of_incr :
    ∀ (raw : List α) (ps : List (Nat × α)),
      (∀ p ∈ ps, raw.get? p.1 = some p.2) →
      ps.Pairwise (fun p q => p.1 < q.1) →
      (ps.map Prod.snd).Sublist raw := by
  intro raw
  induction raw with
  | nil =>
    intro ps hget _
    cases ps with
    | nil => simp
    | cons p qs => exact absurd (hget p (List.mem_cons_self p qs)) (by simp)
  | cons x rs ih =>
    intro ps hget hpw
    cases ps with
    | nil => simp
    | cons p qs =>
      rw [List.pairwise_cons] at hpw
      obtain ⟨hp_lt, hqs_pw⟩ := hpw
      have hsnd : (Prod.snd ∘ fun q : Nat × α => (q.1 - 1, q.2)) = Prod.snd :=
        funext (fun q => rfl)
      by_cases h0 : p.1 = 0
      · have hx : p.2 = x := by
          have hg := hget p (List.mem_cons_self p qs)
          rw [h0] at hg
          exact (Option.some.inj hg).symm
        have hpos : ∀ q ∈ qs, 0 < q.1 := by
          intro q hq
          have := hp_lt q hq
          omega
        have hget' : ∀ q ∈ qs.map (fun r => (r.1 - 1, r.2)), rs.get? q.1 = some q.2 :=
          shifted_get (fun q hq => hget q (List.mem_cons_of_mem p hq)) hpos
        have hpw' := shifted_pairwise hqs_pw hpos
        have hsub := ih _ hget' hpw'
        rw [List.map_map, hsnd] at hsub
        show (p.2 :: qs.map Prod.snd).Sublist (x :: rs)
        rw [hx]
        exact hsub.cons₂ x
      · have hpos : ∀ q ∈ p :: qs, 0 < q.1 := by
          intro q hq
          rcases List.mem_cons.mp hq with rfl | hq'
          · omega
          · have := hp_lt q hq'
            omega
        have hget' : ∀ q ∈ (p :: qs).map (fun r => (r.1 - 1, r.2)), rs.get? q.1 = some q.2 :=
          shifted_get hget hpos
        have hpw' := shifted_pairwise (List.pairwise_cons.mpr ⟨hp_lt, hqs_pw⟩) hpos
        have hsub := ih _ hget' hpw'
        rw [List.map_map, hsnd] at hsub
        exact hsub.cons x

theorem mem_lightTop {raw : List Str} {k : Int} {x : Nat × Nat × Str}
    (hx : x ∈ lightTop raw k) : x ∈ lightScored raw := by
  unfold lightTop at hx
  have h1 := (pySortK_perm _ _).mem_iff.mp hx
  have h2 := (pyTake_sublist _ _).subset h1
  exact (pySortK_perm _ _).mem_iff.mp h2

theorem lightScored_get {raw : List Str} {x : Nat × Nat × Str}
    (hx : x ∈ lightScored raw) : raw.get? x.2.1 = some x.2.2 := by
  unfold lightScored at hx
  rw [List.mem_map] at hx
  obtain ⟨p, hp, rfl⟩ := hx
  unfold pyEnum at hp
  have h := (pyEnumGo_mem hp).2
  simpa using h

theorem lightScored_idx_nodup (raw : List Str) :
    ((lightScored raw).map (fun x => x.2.1)).Nodup := by
  unfold lightScored pyEnum
  rw [List.map_map]
  have hpw := pyEnumGo_pairwise raw 0
  have : (List.map
      ((fun x : Nat × Nat × Str => x.2.1) ∘ fun p : Nat × Str =>
        (sentScore tokensLight (buildFreq tokensLight raw) p.2, p.1, p.2))
      (pyEnumGo 0 raw)).Pairwise (· < ·) := by
    rw [List.pairwise_map]
    exact hpw
  exact this.imp Nat.ne_of_lt

theorem lightTop_idx_nodup (raw : List Str) (k : Int) :
    ((lightTop raw k).map (fun x => x.2.1)).Nodup := by
  unfold lightTop
  have h0 := lightScored_idx_nodup raw
  have h1 : ((pySortK (fun x : Nat × Nat × Str => -(x.1 : Int)) (lightScored raw)).map
      (fun x => x.2.1)).Nodup :=
    (((pySortK_perm _ _).map _).nodup_iff).mpr h0
  have h2 : ((pyTake k (pySortK (fun x : Nat × Nat × Str => -(x.1 : Int))
      (lightScored raw))).map (fun x => x.2.1)).Nodup :=
    h1.sublist ((pyTake_sublist _ _).map _)
  exact (((pySortK_perm _ _).map _).nodup_iff).mpr h2

theorem lightTop_idx_pairwise (raw : List Str) (k : Int) :
    (lightTop raw k).Pairwise (fun a b => a.2.1 < b.2.1) := by
  have hle : (lightTop raw k).Pairwise
      (fun a b => (fun x : Nat × Nat × Str => (x.2.1 : Int)) a ≤
        (fun x : Nat × Nat × Str => (x.2.1 : Int)) b) := by
    unfold lightTop
    exact pySortK_pairwise _ _
  have hnd := lightTop_idx_nodup raw k
  rw [List.Nodup, List.pairwise_map] at hnd
  have hand := hle.and hnd
  refine hand.imp ?_
  intro a b hab
  obtain ⟨h1, h2⟩ := hab
  have h1b : ((a.2.1 : Int)) ≤ ((b.2.1 : Int)) := h1
  have h1' : a.2.1 ≤ b.2.1 := by exact_mod_cast h1b
  exact lt_of_le_of_ne h1' h2

/-- C3 (amended): in the streamlit light implementation — where each
scored sentence carries the index given to it by `enumerate` — the
selected sentences are re-sorted by original position and the output is
the space-join of an order-preserving subsequence of the cleaned
sentence list, including when the input contains identical sentences.
(`research_assistant.py` instead re-sorts by
`raw_sentences.index(sentence)`, the position of the *first* occurrence
of the sentence text, which groups duplicates together and can break
the original relative order — see the counterexample.) -/
theorem summariseLight_order_preserved :
    ∀ (text : Str) (k : Int), ∃ sel, summariseLight text k = joinSpace sel ∧
      sel.Sublist (lightSentences text) := by
  intro text k
  unfold summariseLight
  by_cases hc : collapseWs text = []
  · rw [if_pos hc]
    exact ⟨[], rfl, List.nil_sublist _⟩
  · rw [if_neg hc]
    by_cases hlen : ((lightSentencesOf (collapseWs text)).length : Int) ≤ k
    · rw [if_pos hlen]
      exact ⟨lightSentencesOf (collapseWs text), rfl, List.Sublist.refl _⟩
    · rw [if_neg hlen]
      refine ⟨(lightTop (lightSentencesOf (collapseWs text)) k).map (fun x => x.2.2),
        rfl, ?_⟩
      show ((lightTop (lightSentencesOf (collapseWs text)) k).map
        (fun x => x.2.2)).Sublist (lightSentencesOf (collapseWs text))
      have hmapeq :
          (lightTop (lightSentencesOf (collapseWs text)) k).map (fun x => x.2.2) =
            ((lightTop (lightSentencesOf (collapseWs text)) k).map
              (fun x => x.2)).map Prod.snd := by
        rw [List.map_map]
        have hf : (Prod.snd ∘ fun x : Nat × Nat × Str => x.2) =
            (fun x : Nat × Nat × Str => x.2.2) := funext (fun x => rfl)
        rw [hf]
      rw [hmapeq]
      apply map_snd_sublist_of_incr
      · intro p hp
        rw [List.mem_map] at hp
        obtain ⟨q, hq, rfl⟩ := hp
        exact lightScored_get (mem_lightTop hq)
      · rw [List.pairwise_map]
        exact lightTop_idx_pairwise _ k

/-- C3 (counterexample): `research_assistant.py` on an input whose top
three sentences are two copies of "cat cat cat." plus "dog dog.": the
output lists the two copies adjacently ("cat cat cat. cat cat cat.
dog dog.") although their original relative order is "cat cat cat.
dog dog. cat cat cat." — no order-preserving subsequence of the
(stripped) sentence list joins to the produced output. -/
theorem summariseRA_duplicate_order_counterexample :
    summariseRA "cat cat cat. dog dog. cat cat cat. z.".toList 3 =
      "cat cat cat. cat cat cat. dog dog.".toList ∧
    (((splitSentRA "cat cat cat. dog dog. cat cat cat. z.".toList).map
        stripBoth).sublists.all
      (fun sel => ¬ joinSpace sel =
        "cat cat cat. cat cat cat. dog dog.".toList)) = true := by
  refine ⟨by decide, by decide⟩

/-! ## C8: idempotence machinery — tag stripping -/

theorem noTagB_cons {c : Char} {rest : Str} (h : noTagB (c :: rest) = true) :
    noTagB rest = true := by
  unfold noTagB at h
  split at h
  · rw [Bool.and_eq_true] at h
    exact h.2
  · exact h

theorem noTagB_append {a : Str} : ∀ {s : Str}, noTagB (a ++ s) = true → noTagB s = true := by
  induction a with
  | nil => intro s h; exact h
  | cons c a' ih => intro s h; exact ih (noTagB_cons h)

theorem noEntB_cons {c : Char} {rest : Str} (h : noEntB (c :: rest) = true) :
    noEntB rest = true := by
  unfold noEntB at h
  split at h
  · rw [Bool.and_eq_true] at h
    exact h.2
  · exact h

theorem noEntB_append {a : Str} : ∀ {s : Str}, noEntB (a ++ s) = true → noEntB s = true := by
  induction a with
  | nil => intro s h; exact h
  | cons c a' ih => intro s h; exact ih (noEntB_cons h)

theorem stripTagsGo_no_gt :
    ∀ (rest buf : Str), '>' ∉ rest → stripTagsGo (some buf) rest = buf.reverse ++ rest := by
  intro rest
  induction rest with
  | nil => intro buf _; simp [stripTagsGo]
  | cons c r ih =>
    intro buf h
    have hc : ¬ c = '>' := fun hne => h (hne ▸ List.mem_cons_self c r)
    show (if c = '>' then _ else stripTagsGo (some (c :: buf)) r) = _
    rw [if_neg hc]
    rw [ih (c :: buf) (fun hmem => h (List.mem_cons_of_mem c hmem))]
    simp

theorem noTagB_of_no_gt : ∀ s : Str, '>' ∉ s → noTagB s = true := by
  intro s
  induction s with
  | nil => intro _; rfl
  | cons c rest ih =>
    intro h
    have hr : '>' ∉ rest := fun hm => h (List.mem_cons_of_mem c hm)
    unfold noTagB
    split
    · rw [Bool.and_eq_true]
      refine ⟨?_, ih hr⟩
      rw [Bool.or_eq_true]
      left
      simpa using hr
    · exact ih hr

theorem noTagB_of_no_lt : ∀ s : Str, '<' ∉ s → noTagB s = true := by
  intro s
  induction s with
  | nil => intro _; rfl
  | cons c rest ih =>
    intro h
    have hc : ¬ c = '<' := fun hne => h (hne ▸ List.mem_cons_self c rest)
    unfold noTagB
    rw [if_neg hc]
    exact ih (fun hm => h (List.mem_cons_of_mem c hm))

theorem noTagB_append_no_lt : ∀ (a s : Str), '<' ∉ a → noTagB s = true →
    noTagB (a ++ s) = true := by
  intro a
  induction a with
  | nil => intro s _ hs; exact hs
  | cons c a' ih =>
    intro s h hs
    have hc : ¬ c = '<' := fun hne => h (hne ▸ List.mem_cons_self c a')
    show noTagB (c :: (a' ++ s)) = true
    unfold noTagB
    rw [if_neg hc]
    exact ih s (fun hm => h (List.mem_cons_of_mem c hm)) hs

theorem exists_first_gt_split {s : Str} (h : '>' ∈ s) :
    ∃ a b, s = a ++ '>' :: b ∧ '>' ∉ a := by
  induction s with
  | nil => exact absurd h (List.not_mem_nil _)
  | cons c rest ih =>
    by_cases hc : c = '>'
    · exact ⟨[], rest, by rw [hc, List.nil_append], List.not_mem_nil _⟩
    · have h' : '>' ∈ rest := by
        rcases List.mem_cons.mp h with h1 | h2
        · exact absurd h1.symm hc
        · exact h2
      obtain ⟨a, b, heq, hna⟩ := ih h'
      refine ⟨c :: a, b, by rw [heq, List.cons_append], ?_⟩
      intro hm
      rcases List.mem_cons.mp hm with h1 | h2
      · exact hc h1.symm
      · exact hna h2

theorem stripTagsGo_consume :
    ∀ (a buf b : Str), '>' ∉ a → 2 ≤ buf.length + a.length →
      stripTagsGo (some buf) (a ++ '>' :: b) = stripTagsGo none b := by
  intro a
  induction a with
  | nil =>
    intro buf b _ hlen
    show stripTagsGo (some buf) ('>' :: b) = _
    have h2 : 2 ≤ buf.length := by simpa using hlen
    show (if ('>' : Char) = '>' then
        (if 2 ≤ buf.length then stripTagsGo none b
         else buf.reverse ++ '>' :: stripTagsGo none b)
      else stripTagsGo (some ('>' :: buf)) b) = _
    rw [if_pos rfl, if_pos h2]
  | cons c a' ih =>
    intro buf b h hlen
    have hc : ¬ c = '>' := fun hne => h (hne ▸ List.mem_cons_self c a')
    show (if c = '>' then _ else stripTagsGo (some (c :: buf)) (a' ++ '>' :: b)) = _
    rw [if_neg hc]
    refine ih (c :: buf) b (fun hm => h (List.mem_cons_of_mem c hm)) ?_
    simp only [List.length_cons]
    simp only [List.length_cons] at hlen
    omega

theorem stripTags_fix : ∀ s : Str, noTagB s = true → stripTagsGo none s = s := by
  intro s
  induction s with
  | nil => intro _; rfl
  | cons c rest ih =>
    intro h
    by_cases hc : c = '<'
    · subst hc
      unfold noTagB at h
      rw [if_pos rfl, Bool.and_eq_true, Bool.or_eq_true] at h
      obtain ⟨hd, hrest⟩ := h
      show stripTagsGo (some ['<']) rest = '<' :: rest
      rcases hd with hng | hhd
      · have hng' : '>' ∉ rest := by simpa using hng
        rw [stripTagsGo_no_gt rest ['<'] hng']
        rfl
      · have hhd' : rest.head? = some '>' := by simpa using hhd
        cases rest with
        | nil => simp at hhd'
        | cons d r =>
          have hd' : d = '>' := by simpa using hhd'
          subst hd'
          have hr : stripTagsGo none ('>' :: r) = '>' :: stripTagsGo none r := by
            show (if ('>' : Char) = '<' then _ else '>' :: stripTagsGo none r) = _
            rw [if_neg (by decide)]
          have h2 := ih hrest
          rw [hr] at h2
          have hrec : stripTagsGo none r = r := (List.cons.injEq .. ▸ h2).2
          show (if ('>' : Char) = '>' then
              (if 2 ≤ (['<'] : Str).length then stripTagsGo none r
               else ['<'].reverse ++ '>' :: stripTagsGo none r)
            else stripTagsGo (some ['>', '<']) r) = _
          rw [if_pos rfl, if_neg (by decide), hrec]
          rfl
    · unfold noTagB at h
      rw [if_neg hc] at h
      show (if c = '<' then _ else c :: stripTagsGo none rest) = c :: rest
      rw [if_neg hc, ih h]

theorem noTagB_cons_of_ne {c : Char} (h : ¬ c = '<') (rest : Str) :
    noTagB (c :: rest) = noTagB rest := by
  show (if c = '<' then
      (!(decide ('>' ∈ rest)) || decide (rest.head? = some '>')) && noTagB rest
    else noTagB rest) = noTagB rest
  rw [if_neg h]

theorem noTagB_lt_gt (z : Str) : noTagB ('<' :: '>' :: z) = noTagB z := by
  show ((!(decide ('>' ∈ '>' :: z)) || decide (('>' :: z).head? = some '>')) &&
      noTagB ('>' :: z)) = noTagB z
  rw [noTagB_cons_of_ne (by decide) z]
  simp

theorem stripTagsGo_step_ne {c : Char} (h : ¬ c = '<') (rest : Str) :
    stripTagsGo none (c :: rest) = c :: stripTagsGo none rest := by
  show (if c = '<' then stripTagsGo (some [c]) rest else c :: stripTagsGo none rest) = _
  rw [if_neg h]

theorem stripTagsGo_step_lt_gt (b : Str) :
    stripTagsGo (some ['<']) ('>' :: b) = '<' :: '>' :: stripTagsGo none b := by
  show (if ('>' : Char) = '>' then
      (if 2 ≤ (['<'] : Str).length then stripTagsGo none b
       else ['<'].reverse ++ '>' :: stripTagsGo none b)
    else stripTagsGo (some ['>', '<']) b) = _
  rw [if_pos rfl, if_neg (by decide)]
  rfl

theorem noTag_stripTags : ∀ (n : Nat) (s : Str), s.length ≤ n →
    noTagB (stripTagsGo none s) = true := by
  intro n
  induction n with
  | zero =>
    intro s hs
    have hnil : s = [] := List.length_eq_zero.mp (Nat.le_zero.mp hs)
    subst hnil
    rfl
  | succ n ih =>
    intro s hs
    cases s with
    | nil => rfl
    | cons c rest =>
      rw [List.length_cons] at hs
      by_cases hc : c = '<'
      · subst hc
        show noTagB (stripTagsGo (some ['<']) rest) = true
        by_cases hgt : '>' ∈ rest
        · obtain ⟨a, b, heq, hna⟩ := exists_first_gt_split hgt
          cases a with
          | nil =>
            simp only [List.nil_append] at heq
            subst heq
            rw [List.length_cons] at hs
            rw [stripTagsGo_step_lt_gt b, noTagB_lt_gt]
            exact ih b (by omega)
          | cons d a' =>
            subst heq
            rw [List.length_append, List.length_cons, List.length_cons] at hs
            rw [stripTagsGo_consume (d :: a') ['<'] b hna (by simp; omega)]
            exact ih b (by omega)
        · rw [stripTagsGo_no_gt rest ['<'] hgt]
          show noTagB ('<' :: rest) = true
          show ((!(decide ('>' ∈ rest)) || decide (rest.head? = some '>')) &&
            noTagB rest) = true
          rw [noTagB_of_no_gt rest hgt]
          simp [hgt]
      · rw [stripTagsGo_step_ne hc rest, noTagB_cons_of_ne hc]
        exact ih rest (by omega)

/-! ## C8: idempotence machinery — entity stripping -/

theorem entGo_none_amp (lo : Char → Bool) (repl rest : Str) :
    stripEntGo lo repl none ('&' :: rest) = stripEntGo lo repl (some []) rest := by
  show (if ('&' : Char) = '&' then stripEntGo lo repl (some []) rest
    else '&' :: stripEntGo lo repl none rest) = _
  rw [if_pos rfl]

theorem entGo_none_ne {c : Char} (lo : Char → Bool) (repl : Str) (h : ¬ c = '&')
    (rest : Str) :
    stripEntGo lo repl none (c :: rest) = c :: stripEntGo lo repl none rest := by
  show (if c = '&' then stripEntGo lo repl (some []) rest
    else c :: stripEntGo lo repl none rest) = _
  rw [if_neg h]

theorem entGo_some_letter {lo : Char → Bool} {c : Char} (repl : Str) {ls : Str}
    (h : lo c = true) (rest : Str) :
    stripEntGo lo repl (some ls) (c :: rest) = stripEntGo lo repl (some (c :: ls)) rest := by
  show (if lo c = true then stripEntGo lo repl (some (c :: ls)) rest
    else if c = ';' ∧ ls ≠ [] then repl ++ stripEntGo lo repl none rest
    else if c = '&' then '&' :: ls.reverse ++ stripEntGo lo repl (some []) rest
    else '&' :: ls.reverse ++ c :: stripEntGo lo repl none rest) = _
  rw [if_pos h]

theorem entGo_some_semi {lo : Char → Bool} (repl : Str) {ls : Str}
    (hlo : lo ';' = false) (hls : ls ≠ []) (rest : Str) :
    stripEntGo lo repl (some ls) (';' :: rest) = repl ++ stripEntGo lo repl none rest := by
  show (if lo ';' = true then stripEntGo lo repl (some (';' :: ls)) rest
    else if (';' : Char) = ';' ∧ ls ≠ [] then repl ++ stripEntGo lo repl none rest
    else if (';' : Char) = '&' then '&' :: ls.reverse ++ stripEntGo lo repl (some []) rest
    else '&' :: ls.reverse ++ ';' :: stripEntGo lo repl none rest) = _
  rw [if_neg (by simp [hlo]), if_pos ⟨rfl, hls⟩]

theorem entGo_some_amp {lo : Char → Bool} (repl : Str) {ls : Str}
    (hlo : lo '&' = false) (rest : Str) :
    stripEntGo lo repl (some ls) ('&' :: rest) =
      '&' :: ls.reverse ++ stripEntGo lo repl (some []) rest := by
  show (if lo '&' = true then stripEntGo lo repl (some ('&' :: ls)) rest
    else if ('&' : Char) = ';' ∧ ls ≠ [] then repl ++ stripEntGo lo repl none rest
    else if ('&' : Char) = '&' then '&' :: ls.reverse ++ stripEntGo lo repl (some []) rest
    else '&' :: ls.reverse ++ '&' :: stripEntGo lo repl none rest) = _
  rw [if_neg (by simp [hlo]), if_neg (by rintro ⟨h, -⟩; exact absurd h (by decide)),
    if_pos rfl]

theorem entGo_some_other {lo : Char → Bool} {c : Char} (repl : Str) {ls : Str}
    (hlo : lo c = false) (hc1 : ¬ (c = ';' ∧ ls ≠ [])) (hc2 : ¬ c = '&') (rest : Str) :
    stripEntGo lo repl (some ls) (c :: rest) =
      '&' :: ls.reverse ++ c :: stripEntGo lo repl none rest := by
  show (if lo c = true then stripEntGo lo repl (some (c :: ls)) rest
    else if c = ';' ∧ ls ≠ [] then repl ++ stripEntGo lo repl none rest
    else if c = '&' then '&' :: ls.reverse ++ stripEntGo lo repl (some []) rest
    else '&' :: ls.reverse ++ c :: stripEntGo lo repl none rest) = _
  rw [if_neg (by simp [hlo]), if_neg hc1, if_neg hc2]

theorem entGo_letters (lo : Char → Bool) (repl : Str) :
    ∀ (L acc rest : Str), (∀ c ∈ L, lo c = true) →
      stripEntGo lo repl (some acc) (L ++ rest) =
        stripEntGo lo repl (some (L.reverse ++ acc)) rest := by
  intro L
  induction L with
  | nil => intro acc rest _; simp
  | cons c L' ih =>
    intro acc rest hall
    have hc := hall c (List.mem_cons_self c L')
    rw [List.cons_append, entGo_some_letter repl hc]
    rw [ih (c :: acc) rest (fun d hd => hall d (List.mem_cons_of_mem c hd))]
    have hst : L'.reverse ++ (c :: acc) = (c :: L').reverse ++ acc := by simp
    rw [hst]

theorem dropWhile_head_false {p : Char → Bool} :
    ∀ {l : Str} {x : Char} {r : Str}, l.dropWhile p = x :: r → p x = false := by
  intro l
  induction l with
  | nil => intro x r h; simp at h
  | cons c cs ih =>
    intro x r h
    rw [List.dropWhile_cons] at h
    split at h
    · exact ih h
    · rename_i hpc
      injection h with h1 h2
      subst h1
      exact Bool.eq_false_iff.mpr hpc

theorem stripEnt_fix (repl : Str) : ∀ (n : Nat) (s : Str), s.length ≤ n →
    noEntB s = true → stripEntGo isAsciiAlpha repl none s = s := by
  intro n
  induction n with
  | zero =>
    intro s hs _
    have hnil : s = [] := List.length_eq_zero.mp (Nat.le_zero.mp hs)
    subst hnil
    rfl
  | succ n ih =>
    intro s hs hne
    cases s with
    | nil => rfl
    | cons c rest =>
      rw [List.length_cons] at hs
      by_cases hc : c = '&'
      · subst hc
        have h := hne
        unfold noEntB at h
        rw [if_pos rfl, Bool.and_eq_true] at h
        obtain ⟨hhead, hrest⟩ := h
        have hEH : entHeadB rest = false := by simpa using hhead
        rw [entGo_none_amp]
        have hsplit : rest.takeWhile isAsciiAlpha ++ rest.dropWhile isAsciiAlpha = rest :=
          List.takeWhile_append_dropWhile _ _
        have hallL : ∀ d ∈ rest.takeWhile isAsciiAlpha, isAsciiAlpha d = true :=
          fun d hd => List.mem_takeWhile_imp hd
        conv_lhs => rw [← hsplit]
        rw [entGo_letters _ _ _ [] _ hallL, List.append_nil]
        cases hRc : rest.dropWhile isAsciiAlpha with
        | nil =>
          have hLr : rest.takeWhile isAsciiAlpha = rest := by
            have h2 := hsplit
            rw [hRc, List.append_nil] at h2
            exact h2
          show '&' :: (rest.takeWhile isAsciiAlpha).reverse.reverse = '&' :: rest
          rw [List.reverse_reverse, hLr]
        | cons x r' =>
          have hx : isAsciiAlpha x = false := dropWhile_head_false hRc
          have hrest_eq : rest = rest.takeWhile isAsciiAlpha ++ x :: r' := by
            conv_lhs => rw [← hsplit, hRc]
          have hlen_r' : r'.length + 1 ≤ n := by
            have h3 : rest.length = (rest.takeWhile isAsciiAlpha).length + (r'.length + 1) := by
              conv_lhs => rw [hrest_eq]
              simp
            omega
          by_cases hxc : x = ';'
          · subst hxc
            have hLnil : rest.takeWhile isAsciiAlpha = [] := by
              unfold entHeadB at hEH
              rw [hRc] at hEH
              simpa using hEH
            rw [hLnil]
            rw [entGo_some_other repl (by decide) (by simp) (by decide)]
            have hr' : stripEntGo isAsciiAlpha repl none r' = r' := by
              refine ih r' (by omega) ?_
              have := noEntB_append (a := rest.takeWhile isAsciiAlpha)
                (s := ';' :: r') (hrest_eq ▸ hrest)
              exact noEntB_cons this
            rw [hr']
            rw [hrest_eq, hLnil]
            rfl
          · by_cases hxa : x = '&'
            · subst hxa
              rw [entGo_some_amp repl (by decide)]
              have hr' : stripEntGo isAsciiAlpha repl none ('&' :: r') = '&' :: r' := by
                refine ih ('&' :: r') (by simpa using hlen_r') ?_
                exact noEntB_append (a := rest.takeWhile isAsciiAlpha) (hrest_eq ▸ hrest)
              rw [entGo_none_amp] at hr'
              rw [hr']
              rw [List.reverse_reverse]
              conv_rhs => rw [hrest_eq]
              simp
            · rw [entGo_some_other repl hx (by rintro ⟨h1, -⟩; exact hxc h1) hxa]
              have hr' : stripEntGo isAsciiAlpha repl none r' = r' := by
                refine ih r' (by omega) ?_
                have := noEntB_append (a := rest.takeWhile isAsciiAlpha)
                  (s := x :: r') (hrest_eq ▸ hrest)
                unfold noEntB at this
                rw [if_neg hxa] at this
                exact this
              rw [hr', List.reverse_reverse]
              conv_rhs => rw [hrest_eq]
              simp
      · rw [entGo_none_ne _ _ hc]
        have h := hne
        unfold noEntB at h
        rw [if_neg hc] at h
        rw [ih rest (by omega) h]

theorem noEntB_cons_of_ne {c : Char} (h : ¬ c = '&') (rest : Str) :
    noEntB (c :: rest) = noEntB rest := by
  show (if c = '&' then !entHeadB rest && noEntB rest else noEntB rest) = noEntB rest
  rw [if_neg h]

theorem noEntB_amp_intro {rest : Str} (h1 : entHeadB rest = false) (h2 : noEntB rest = true) :
    noEntB ('&' :: rest) = true := by
  show (if ('&' : Char) = '&' then !entHeadB rest && noEntB rest else noEntB rest) = true
  rw [if_pos rfl, h1, h2]
  rfl

theorem noEntB_of_no_amp : ∀ s : Str, '&' ∉ s → noEntB s = true := by
  intro s
  induction s with
  | nil => intro _; rfl
  | cons c rest ih =>
    intro h
    have hc : ¬ c = '&' := fun hne => h (hne ▸ List.mem_cons_self c rest)
    rw [noEntB_cons_of_ne hc]
    exact ih (fun hm => h (List.mem_cons_of_mem c hm))

theorem noEntB_append_no_amp : ∀ (a s : Str), '&' ∉ a → noEntB s = true →
    noEntB (a ++ s) = true := by
  intro a
  induction a with
  | nil => intro s _ hs; exact hs
  | cons c a' ih =>
    intro s h hs
    have hc : ¬ c = '&' := fun hne => h (hne ▸ List.mem_cons_self c a')
    rw [List.cons_append, noEntB_cons_of_ne hc]
    exact ih s (fun hm => h (List.mem_cons_of_mem c hm)) hs

theorem entHeadB_head_not_alpha {d : Char} (X : Str) (hd : isAsciiAlpha d = false) :
    entHeadB (d :: X) = false := by
  unfold entHeadB
  rw [List.takeWhile_cons_of_neg (by simp [hd])]
  simp

theorem entHeadB_all_alpha (L : Str) (hL : ∀ c ∈ L, isAsciiAlpha c = true) :
    entHeadB L = false := by
  have hdw : L.dropWhile isAsciiAlpha = [] :=
    List.dropWhile_eq_nil_iff.mpr (by intro x hx; exact hL x hx)
  unfold entHeadB
  rw [hdw]
  simp

theorem takeWhile_append_all {p : Char → Bool} :
    ∀ (L s : Str), (∀ c ∈ L, p c = true) → (L ++ s).takeWhile p = L ++ s.takeWhile p := by
  intro L
  induction L with
  | nil => intro s _; rfl
  | cons c L' ih =>
    intro s h
    rw [List.cons_append, List.takeWhile_cons_of_pos (h c (List.mem_cons_self c L'))]
    rw [ih s (fun d hd => h d (List.mem_cons_of_mem c hd))]
    rfl

theorem dropWhile_append_all {p : Char → Bool} :
    ∀ (L s : Str), (∀ c ∈ L, p c = true) → (L ++ s).dropWhile p = s.dropWhile p := by
  intro L
  induction L with
  | nil => intro s _; rfl
  | cons c L' ih =>
    intro s h
    rw [List.cons_append, List.dropWhile_cons_of_pos (h c (List.mem_cons_self c L'))]
    exact ih s (fun d hd => h d (List.mem_cons_of_mem c hd))

theorem entHeadB_append_false (L X : Str) (hL : ∀ c ∈ L, isAsciiAlpha c = true)
    (hX : ∀ d r, X = d :: r → isAsciiAlpha d = false ∧ ¬ d = ';') :
    entHeadB (L ++ X) = false := by
  cases X with
  | nil =>
    rw [List.append_nil]
    exact entHeadB_all_alpha L hL
  | cons d r =>
    obtain ⟨hda, hds⟩ := hX d r rfl
    unfold entHeadB
    rw [dropWhile_append_all L (d :: r) hL]
    rw [List.dropWhile_cons_of_neg (by simp [hda])]
    simp [hds]

theorem amp_not_mem_of_alpha {L : Str} (hL : ∀ c ∈ L, isAsciiAlpha c = true) : '&' ∉ L :=
  fun hmem => absurd (hL '&' hmem) (by decide)

theorem entGo_some_head : ∀ (s ls : Str),
    (stripEntGo isAsciiAlpha [' '] (some ls) s).head? = some ' ' ∨
    (stripEntGo isAsciiAlpha [' '] (some ls) s).head? = some '&' := by
  intro s
  induction s with
  | nil => intro ls; right; rfl
  | cons c r ih =>
    intro ls
    by_cases ha : isAsciiAlpha c = true
    · rw [entGo_some_letter _ ha]
      exact ih (c :: ls)
    · have ha' : isAsciiAlpha c = false := Bool.eq_false_iff.mpr ha
      by_cases hsemi : c = ';' ∧ ls ≠ []
      · obtain ⟨rfl, hls⟩ := hsemi
        rw [entGo_some_semi _ (by decide) hls]
        left
        rfl
      · by_cases hamp : c = '&'
        · subst hamp
          rw [entGo_some_amp _ (by decide)]
          right
          rfl
        · rw [entGo_some_other _ ha' hsemi hamp]
          right
          rfl

theorem noEnt_stripEnt : ∀ (n : Nat) (s : Str), s.length ≤ n →
    noEntB (stripEntGo isAsciiAlpha [' '] none s) = true := by
  intro n
  induction n with
  | zero =>
    intro s hs
    have hnil : s = [] := List.length_eq_zero.mp (Nat.le_zero.mp hs)
    subst hnil
    rfl
  | succ n ih =>
    intro s hs
    cases s with
    | nil => rfl
    | cons c rest =>
      rw [List.length_cons] at hs
      by_cases hc : c = '&'
      · subst hc
        rw [entGo_none_amp]
        have hsplit : rest.takeWhile isAsciiAlpha ++ rest.dropWhile isAsciiAlpha = rest :=
          List.takeWhile_append_dropWhile _ _
        have hallL : ∀ d ∈ rest.takeWhile isAsciiAlpha, isAsciiAlpha d = true :=
          fun d hd => List.mem_takeWhile_imp hd
        conv_lhs => rw [← hsplit]
        rw [entGo_letters _ _ _ [] _ hallL, List.append_nil]
        cases hRc : rest.dropWhile isAsciiAlpha with
        | nil =>
          show noEntB ('&' :: (rest.takeWhile isAsciiAlpha).reverse.reverse) = true
          rw [List.reverse_reverse]
          refine noEntB_amp_intro (entHeadB_all_alpha _ hallL) ?_
          exact noEntB_of_no_amp _ (amp_not_mem_of_alpha hallL)
        | cons x r' =>
          have hx : isAsciiAlpha x = false := dropWhile_head_false hRc
          have hrest_eq : rest = rest.takeWhile isAsciiAlpha ++ x :: r' := by
            conv_lhs => rw [← hsplit, hRc]
          have hlen_r' : r'.length + 1 ≤ n := by
            have h3 : rest.length =
                (rest.takeWhile isAsciiAlpha).length + (r'.length + 1) := by
              conv_lhs => rw [hrest_eq]
              simp
            omega
          by_cases hxsemi : x = ';'
          · subst hxsemi
            by_cases hLnil : rest.takeWhile isAsciiAlpha = []
            · rw [hLnil]
              rw [entGo_some_other [' '] (by decide) (by simp) (by decide)]
              show noEntB ('&' :: ';' :: stripEntGo isAsciiAlpha [' '] none r') = true
              refine noEntB_amp_intro (entHeadB_head_not_alpha _ (by decide)) ?_
              rw [noEntB_cons_of_ne (by decide)]
              exact ih r' (by omega)
            · have hlsne : (rest.takeWhile isAsciiAlpha).reverse ≠ [] := by
                simpa using hLnil
              rw [entGo_some_semi [' '] (by decide) hlsne]
              show noEntB (' ' :: stripEntGo isAsciiAlpha [' '] none r') = true
              rw [noEntB_cons_of_ne (by decide)]
              exact ih r' (by omega)
          · by_cases hxa : x = '&'
            · subst hxa
              rw [entGo_some_amp [' '] (by decide), List.reverse_reverse]
              rw [← entGo_none_amp]
              have hout := ih ('&' :: r') (by simpa using hlen_r')
              refine noEntB_amp_intro ?_ ?_
              · refine entHeadB_append_false _ _ hallL ?_
                intro d dr hdx
                have hhd := entGo_some_head r' []
                rw [← entGo_none_amp] at hhd
                rw [hdx] at hhd
                simp only [List.head?_cons] at hhd
                rcases hhd with h1 | h1
                · have : d = ' ' := by injection h1
                  subst this
                  exact ⟨by decide, by decide⟩
                · have : d = '&' := by injection h1
                  subst this
                  exact ⟨by decide, by decide⟩
              · exact noEntB_append_no_amp _ _ (amp_not_mem_of_alpha hallL) hout
            · rw [entGo_some_other [' '] hx (by rintro ⟨h1, -⟩; exact hxsemi h1) hxa]
              rw [List.reverse_reverse]
              have hY := ih r' (by omega)
              refine noEntB_amp_intro ?_ ?_
              · by_cases hxs : x = ';'
                · exact absurd hxs hxsemi
                · refine entHeadB_append_false _ _ hallL ?_
                  intro d dr hdx
                  injection hdx with h1 h2
                  subst h1
                  exact ⟨hx, hxs⟩
              · refine noEntB_append_no_amp _ _ (amp_not_mem_of_alpha hallL) ?_
                rw [noEntB_cons_of_ne hxa]
                exact hY
      · rw [entGo_none_ne _ _ hc]
        rw [noEntB_cons_of_ne hc]
        exact ih rest (by omega)

theorem entGo_gt_mem : ∀ s : Str,
    ('>' ∈ stripEntGo isAsciiAlpha [' '] none s → '>' ∈ s) ∧
    (∀ ls, '>' ∈ stripEntGo isAsciiAlpha [' '] (some ls) s → '>' ∈ ls ∨ '>' ∈ s) := by
  intro s
  induction s with
  | nil =>
    refine ⟨fun hc => absurd hc (List.not_mem_nil _), fun ls hc => ?_⟩
    rcases List.mem_cons.mp hc with h | h
    · exact absurd h (by decide)
    · exact Or.inl (List.mem_reverse.mp h)
  | cons d r ih =>
    obtain ⟨ihn, ihs⟩ := ih
    constructor
    · intro hc
      by_cases hd : d = '&'
      · subst hd
        rw [entGo_none_amp] at hc
        rcases ihs [] hc with h | h
        · exact absurd h (List.not_mem_nil _)
        · exact List.mem_cons_of_mem _ h
      · rw [entGo_none_ne _ _ hd] at hc
        rcases List.mem_cons.mp hc with h | h
        · exact List.mem_cons.mpr (Or.inl h)
        · exact List.mem_cons_of_mem _ (ihn h)
    · intro ls hc
      by_cases ha : isAsciiAlpha d = true
      · rw [entGo_some_letter _ ha] at hc
        rcases ihs (d :: ls) hc with h | h
        · rcases List.mem_cons.mp h with h1 | h1
          · exact Or.inr (List.mem_cons.mpr (Or.inl h1))
          · exact Or.inl h1
        · exact Or.inr (List.mem_cons_of_mem _ h)
      · have ha' : isAsciiAlpha d = false := Bool.eq_false_iff.mpr ha
        by_cases hsemi : d = ';' ∧ ls ≠ []
        · obtain ⟨rfl, hls⟩ := hsemi
          rw [entGo_some_semi _ (by decide) hls] at hc
          rcases List.mem_cons.mp hc with h | h
          · exact absurd h (by decide)
          · exact Or.inr (List.mem_cons_of_mem _ (ihn h))
        · by_cases hamp : d = '&'
          · subst hamp
            rw [entGo_some_amp _ (by decide)] at hc
            rcases List.mem_cons.mp hc with h | h
            · exact absurd h (by decide)
            · rcases List.mem_append.mp h with h1 | h1
              · exact Or.inl (List.mem_reverse.mp h1)
              · rcases ihs [] h1 with h2 | h2
                · exact absurd h2 (List.not_mem_nil _)
                · exact Or.inr (List.mem_cons_of_mem _ h2)
          · rw [entGo_some_other _ ha' hsemi hamp] at hc
            rcases List.mem_cons.mp hc with h | h
            · exact absurd h (by decide)
            · rcases List.mem_append.mp h with h1 | h1
              · exact Or.inl (List.mem_reverse.mp h1)
              · rcases List.mem_cons.mp h1 with h2 | h2
                · exact Or.inr (List.mem_cons.mpr (Or.inl h2))
                · exact Or.inr (List.mem_cons_of_mem _ (ihn h2))

theorem noTagB_lt_intro {Y : Str} (hd : ('>' ∉ Y) ∨ Y.head? = some '>')
    (hY : noTagB Y = true) : noTagB ('<' :: Y) = true := by
  show ((!(decide ('>' ∈ Y)) || decide (Y.head? = some '>')) && noTagB Y) = true
  rw [hY]
  rcases hd with h | h
  · simp [h]
  · simp [h]

theorem noTagB_lt_elim {rest : Str} (h : noTagB ('<' :: rest) = true) :
    (('>' ∉ rest) ∨ rest.head? = some '>') ∧ noTagB rest = true := by
  have h2 : ((!(decide ('>' ∈ rest)) || decide (rest.head? = some '>')) && noTagB rest)
      = true := h
  rw [Bool.and_eq_true, Bool.or_eq_true] at h2
  obtain ⟨hd, hrest⟩ := h2
  refine ⟨?_, hrest⟩
  rcases hd with h1 | h1
  · left
    simpa using h1
  · right
    simpa using h1

theorem lt_not_mem_of_alpha {L : Str} (hL : ∀ c ∈ L, isAsciiAlpha c = true) : '<' ∉ L :=
  fun hmem => absurd (hL '<' hmem) (by decide)

theorem ent_preserves_noTag : ∀ (n : Nat) (s : Str), s.length ≤ n → noTagB s = true →
    noTagB (stripEntGo isAsciiAlpha [' '] none s) = true := by
  intro n
  induction n with
  | zero =>
    intro s hs _
    have hnil : s = [] := List.length_eq_zero.mp (Nat.le_zero.mp hs)
    subst hnil
    rfl
  | succ n ih =>
    intro s hs hnt
    cases s with
    | nil => rfl
    | cons c rest =>
      rw [List.length_cons] at hs
      by_cases hlt : c = '<'
      · subst hlt
        obtain ⟨hd, hrest⟩ := noTagB_lt_elim hnt
        rw [entGo_none_ne _ _ (by decide)]
        refine noTagB_lt_intro ?_ (ih rest (by omega) hrest)
        rcases hd with hng | hhd
        · left
          intro hmem
          exact hng ((entGo_gt_mem rest).1 hmem)
        · right
          cases rest with
          | nil => simp at hhd
          | cons e r =>
            have he : e = '>' := by simpa using hhd
            subst he
            rw [entGo_none_ne _ _ (by decide)]
            rfl
      · by_cases hc : c = '&'
        · subst hc
          have hrest : noTagB rest = true := noTagB_cons hnt
          rw [entGo_none_amp]
          have hsplit : rest.takeWhile isAsciiAlpha ++ rest.dropWhile isAsciiAlpha = rest :=
            List.takeWhile_append_dropWhile _ _
          have hallL : ∀ d ∈ rest.takeWhile isAsciiAlpha, isAsciiAlpha d = true :=
            fun d hd => List.mem_takeWhile_imp hd
          conv_lhs => rw [← hsplit]
          rw [entGo_letters _ _ _ [] _ hallL, List.append_nil]
          cases hRc : rest.dropWhile isAsciiAlpha with
          | nil =>
            show noTagB ('&' :: (rest.takeWhile isAsciiAlpha).reverse.reverse) = true
            rw [List.reverse_reverse]
            refine noTagB_of_no_lt _ ?_
            intro hmem
            rcases List.mem_cons.mp hmem with h | h
            · exact absurd h (by decide)
            · exact lt_not_mem_of_alpha hallL h
          | cons x r' =>
            have hx : isAsciiAlpha x = false := dropWhile_head_false hRc
            have hrest_eq : rest = rest.takeWhile isAsciiAlpha ++ x :: r' := by
              conv_lhs => rw [← hsplit, hRc]
            have hlen_r' : r'.length + 1 ≤ n := by
              have h3 : rest.length =
                  (rest.takeWhile isAsciiAlpha).length + (r'.length + 1) := by
                conv_lhs => rw [hrest_eq]
                simp
              omega
            have hxr' : noTagB (x :: r') = true :=
              noTagB_append (hrest_eq ▸ hrest)
            have hr' : noTagB r' = true := noTagB_cons hxr'
            by_cases hxsemi : x = ';'
            · subst hxsemi
              by_cases hLnil : rest.takeWhile isAsciiAlpha = []
              · rw [hLnil]
                rw [entGo_some_other [' '] (by decide) (by simp) (by decide)]
                show noTagB ('&' :: ';' :: stripEntGo isAsciiAlpha [' '] none r') = true
                rw [noTagB_cons_of_ne (by decide), noTagB_cons_of_ne (by decide)]
                exact ih r' (by omega) hr'
              · have hlsne : (rest.takeWhile isAsciiAlpha).reverse ≠ [] := by
                  simpa using hLnil
                rw [entGo_some_semi [' '] (by decide) hlsne]
                show noTagB (' ' :: stripEntGo isAsciiAlpha [' '] none r') = true
                rw [noTagB_cons_of_ne (by decide)]
                exact ih r' (by omega) hr'
            · by_cases hxa : x = '&'
              · subst hxa
                rw [entGo_some_amp [' '] (by decide), List.reverse_reverse]
                rw [← entGo_none_amp]
                show noTagB ('&' :: (rest.takeWhile isAsciiAlpha ++
                  stripEntGo isAsciiAlpha [' '] none ('&' :: r'))) = true
                rw [noTagB_cons_of_ne (by decide)]
                refine noTagB_append_no_lt _ _ (lt_not_mem_of_alpha hallL) ?_
                exact ih ('&' :: r') (by simpa using hlen_r') hxr'
              · rw [entGo_some_other [' '] hx (by rintro ⟨h1, -⟩; exact hxsemi h1) hxa]
                rw [List.reverse_reverse]
                show noTagB ('&' :: (rest.takeWhile isAsciiAlpha ++
                  x :: stripEntGo isAsciiAlpha [' '] none r')) = true
                rw [noTagB_cons_of_ne (by decide)]
                refine noTagB_append_no_lt _ _ (lt_not_mem_of_alpha hallL) ?_
                by_cases hxlt : x = '<'
                · subst hxlt
                  obtain ⟨hd2, hr2⟩ := noTagB_lt_elim hxr'
                  refine noTagB_lt_intro ?_ (ih r' (by omega) hr2)
                  rcases hd2 with hng | hhd
                  · left
                    intro hmem
                    exact hng ((entGo_gt_mem r').1 hmem)
                  · right
                    cases r' with
                    | nil => simp at hhd
                    | cons e r2 =>
                      have he : e = '>' := by simpa using hhd
                      subst he
                      rw [entGo_none_ne _ _ (by decide)]
                      rfl
                · rw [noTagB_cons_of_ne hxlt]
                  exact ih r' (by omega) hr'
        · rw [entGo_none_ne _ _ hc]
          rw [noTagB_cons_of_ne hlt]
          have hrest : noTagB rest = true := noTagB_cons hnt
          exact ih rest (by omega) hrest

/-! ## C8: idempotence machinery — whitespace collapsing -/

theorem collapseGo_ws {d : Char} (h : isWsB d = true) (pend : Bool) (r : Str) :
    collapseGo pend (d :: r) = collapseGo true r := by
  show (if isWsB d = true then collapseGo true r
    else if pend = true then ' ' :: d :: collapseGo false r
    else d :: collapseGo false r) = _
  rw [if_pos h]

theorem collapseGo_nws_false {d : Char} (h : isWsB d = false) (r : Str) :
    collapseGo false (d :: r) = d :: collapseGo false r := by
  show (if isWsB d = true then collapseGo true r
    else if (false : Bool) = true then ' ' :: d :: collapseGo false r
    else d :: collapseGo false r) = _
  rw [if_neg (by simp [h]), if_neg (by simp)]

theorem collapseGo_nws_true {d : Char} (h : isWsB d = false) (r : Str) :
    collapseGo true (d :: r) = ' ' :: d :: collapseGo false r := by
  show (if isWsB d = true then collapseGo true r
    else if (true : Bool) = true then ' ' :: d :: collapseGo false r
    else d :: collapseGo false r) = _
  rw [if_neg (by simp [h]), if_pos rfl]

theorem collapseGo_mem : ∀ (s : Str) (pend : Bool) (c : Char),
    c ∈ collapseGo pend s → c = ' ' ∨ c ∈ s := by
  intro s
  induction s with
  | nil => intro pend c hc; exact absurd hc (List.not_mem_nil c)
  | cons d r ih =>
    intro pend c hc
    by_cases hw : isWsB d = true
    · rw [collapseGo_ws hw] at hc
      rcases ih true c hc with h | h
      · exact Or.inl h
      · exact Or.inr (List.mem_cons_of_mem _ h)
    · have hw' : isWsB d = false := Bool.eq_false_iff.mpr hw
      have hcore : c ∈ d :: collapseGo false r → c = ' ' ∨ c ∈ d :: r := by
        intro hm
        rcases List.mem_cons.mp hm with h | h
        · exact Or.inr (List.mem_cons.mpr (Or.inl h))
        · rcases ih false c h with h1 | h1
          · exact Or.inl h1
          · exact Or.inr (List.mem_cons_of_mem _ h1)
      cases pend with
      | false =>
        rw [collapseGo_nws_false hw'] at hc
        exact hcore hc
      | true =>
        rw [collapseGo_nws_true hw'] at hc
        rcases List.mem_cons.mp hc with h | h
        · exact Or.inl h
        · exact hcore h

theorem alpha_not_ws {c : Char} (h : isAsciiAlpha c = true) : isWsB c = false := by
  cases hx : isWsB c
  · rfl
  · exfalso
    have hc : ((((c = ' ' ∨ c = '\t') ∨ c = '\n') ∨ c = '\x0d') ∨ c = '\x0b') ∨
        c = '\x0c' := by
      simpa [isWsB] using hx
    rcases hc with ((((rfl | rfl) | rfl) | rfl) | rfl) | rfl <;> exact absurd h (by decide)

theorem collapseGo_pass : ∀ (L z : Str), (∀ c ∈ L, isWsB c = false) →
    collapseGo false (L ++ z) = L ++ collapseGo false z := by
  intro L
  induction L with
  | nil => intro z _; rfl
  | cons c L' ih =>
    intro z h
    rw [List.cons_append, collapseGo_nws_false (h c (List.mem_cons_self c L'))]
    rw [ih z (fun d hd => h d (List.mem_cons_of_mem c hd))]
    rfl

theorem collapseGo_true_head : ∀ r : Str,
    (collapseGo true r).head? = none ∨ (collapseGo true r).head? = some ' ' := by
  intro r
  induction r with
  | nil => left; rfl
  | cons d r2 ih =>
    by_cases hw : isWsB d = true
    · rw [collapseGo_ws hw]
      exact ih
    · rw [collapseGo_nws_true (Bool.eq_false_iff.mpr hw)]
      right
      rfl

theorem noEntB_amp_elim {rest : Str} (h : noEntB ('&' :: rest) = true) :
    entHeadB rest = false ∧ noEntB rest = true := by
  have h2 : (!entHeadB rest && noEntB rest) = true := h
  rw [Bool.and_eq_true] at h2
  exact ⟨by simpa using h2.1, h2.2⟩

theorem collapse_preserves_noTag : ∀ (s : Str) (pend : Bool), noTagB s = true →
    noTagB (collapseGo pend s) = true := by
  intro s
  induction s with
  | nil => intro pend _; rfl
  | cons d r ih =>
    intro pend hnt
    by_cases hw : isWsB d = true
    · rw [collapseGo_ws hw]
      exact ih true (noTagB_cons hnt)
    · have hw' : isWsB d = false := Bool.eq_false_iff.mpr hw
      have hmain : noTagB (d :: collapseGo false r) = true := by
        by_cases hdlt : d = '<'
        · subst hdlt
          obtain ⟨hd, hrest⟩ := noTagB_lt_elim hnt
          refine noTagB_lt_intro ?_ (ih false hrest)
          rcases hd with hng | hhd
          · left
            intro hmem
            rcases collapseGo_mem r false '>' hmem with h | h
            · exact absurd h (by decide)
            · exact hng h
          · right
            cases r with
            | nil => simp at hhd
            | cons e r2 =>
              have he : e = '>' := by simpa using hhd
              subst he
              rw [collapseGo_nws_false (by decide)]
              rfl
        · rw [noTagB_cons_of_ne hdlt]
          exact ih false (noTagB_cons hnt)
      cases pend with
      | false =>
        rw [collapseGo_nws_false hw']
        exact hmain
      | true =>
        rw [collapseGo_nws_true hw']
        rw [noTagB_cons_of_ne (by decide)]
        exact hmain

theorem collapse_preserves_noEnt : ∀ (s : Str) (pend : Bool), noEntB s = true →
    noEntB (collapseGo pend s) = true := by
  intro s
  induction s with
  | nil => intro pend _; rfl
  | cons d r ih =>
    intro pend hne
    by_cases hw : isWsB d = true
    · rw [collapseGo_ws hw]
      exact ih true (noEntB_cons hne)
    · have hw' : isWsB d = false := Bool.eq_false_iff.mpr hw
      have hmain : noEntB (d :: collapseGo false r) = true := by
        by_cases hdamp : d = '&'
        · subst hdamp
          obtain ⟨hEH, hrest⟩ := noEntB_amp_elim hne
          refine noEntB_amp_intro ?_ (ih false hrest)
          have hsplit : r.takeWhile isAsciiAlpha ++ r.dropWhile isAsciiAlpha = r :=
            List.takeWhile_append_dropWhile _ _
          have hallL : ∀ c ∈ r.takeWhile isAsciiAlpha, isAsciiAlpha c = true :=
            fun c hc => List.mem_takeWhile_imp hc
          have hallLws : ∀ c ∈ r.takeWhile isAsciiAlpha, isWsB c = false :=
            fun c hc => alpha_not_ws (hallL c hc)
          conv_lhs => rw [← hsplit]
          rw [collapseGo_pass _ _ hallLws]
          cases hRc : r.dropWhile isAsciiAlpha with
          | nil =>
            show entHeadB (r.takeWhile isAsciiAlpha ++ ([] : Str)) = false
            rw [List.append_nil]
            exact entHeadB_all_alpha _ hallL
          | cons x r2 =>
            have hx : isAsciiAlpha x = false := dropWhile_head_false hRc
            by_cases hxw : isWsB x = true
            · rw [collapseGo_ws hxw]
              refine entHeadB_append_false _ _ hallL ?_
              intro e er he
              rcases collapseGo_true_head r2 with h | h
              · rw [he] at h
                simp at h
              · rw [he] at h
                simp only [List.head?_cons] at h
                have he' : e = ' ' := by injection h
                subst he'
                exact ⟨by decide, by decide⟩
            · have hxw' : isWsB x = false := Bool.eq_false_iff.mpr hxw
              rw [collapseGo_nws_false hxw']
              have hreq : r = r.takeWhile isAsciiAlpha ++ x :: r2 := by
                conv_lhs => rw [← hsplit, hRc]
              have hEH2 : entHeadB (r.takeWhile isAsciiAlpha ++ x :: r2) = false := by
                rw [← hreq]
                exact hEH
              by_cases hxs : x = ';'
              · subst hxs
                have hLnil : r.takeWhile isAsciiAlpha = [] := by
                  unfold entHeadB at hEH2
                  rw [takeWhile_append_all _ _ hallL,
                    List.takeWhile_cons_of_neg (by simp [hx]),
                    dropWhile_append_all _ _ hallL,
                    List.dropWhile_cons_of_neg (by simp [hx])] at hEH2
                  simpa using hEH2
                rw [hLnil, List.nil_append]
                exact entHeadB_head_not_alpha _ (by decide)
              · refine entHeadB_append_false _ _ hallL ?_
                intro e er he
                injection he with h1 h2
                subst h1
                exact ⟨hx, hxs⟩
        · rw [noEntB_cons_of_ne hdamp]
          exact ih false (noEntB_cons hne)
      cases pend with
      | false =>
        rw [collapseGo_nws_false hw']
        exact hmain
      | true =>
        rw [collapseGo_nws_true hw']
        rw [noEntB_cons_of_ne (by decide)]
        exact hmain

theorem collNormB_step_space (rest : Str) :
    collNormB false (' ' :: rest) = collNormB true rest := by
  show (if (' ' : Char) = ' ' then !false && collNormB true rest
    else if isWsB ' ' = true then false else collNormB false rest) = _
  rw [if_pos rfl]
  simp

theorem collNormB_step_nws {c : Char} (h1 : ¬ c = ' ') (h2 : isWsB c = false)
    (prev : Bool) (rest : Str) :
    collNormB prev (c :: rest) = collNormB false rest := by
  show (if c = ' ' then !prev && collNormB true rest
    else if isWsB c = true then false else collNormB false rest) = _
  rw [if_neg h1, if_neg (by simp [h2])]

theorem collNormB_ws_elim {c : Char} {r : Str} {prev : Bool}
    (h : collNormB prev (c :: r) = true) (hcs : ¬ c = ' ') : isWsB c = false := by
  cases hx : isWsB c
  · rfl
  · exfalso
    have hfalse : collNormB prev (c :: r) = false := by
      show (if c = ' ' then !prev && collNormB true r
        else if isWsB c = true then false else collNormB false r) = false
      rw [if_neg hcs, if_pos (by simp [hx])]
    rw [hfalse] at h
    exact absurd h (by decide)

theorem collNormB_space_true_elim {r : Str} (h : collNormB true (' ' :: r) = true) :
    False := by
  have hfalse : collNormB true (' ' :: r) = false := by
    show (if (' ' : Char) = ' ' then !true && collNormB true r
      else if isWsB ' ' = true then false else collNormB false r) = false
    rw [if_pos rfl]
    simp
  rw [hfalse] at h
  exact absurd h (by decide)

theorem collapseGo_norm : ∀ s : Str,
    collNormB false (collapseGo false s) = true ∧
    collNormB false (collapseGo true s) = true := by
  intro s
  induction s with
  | nil => exact ⟨rfl, rfl⟩
  | cons c r ih =>
    obtain ⟨ih1, ih2⟩ := ih
    by_cases hw : isWsB c = true
    · refine ⟨?_, ?_⟩
      · rw [collapseGo_ws hw]
        exact ih2
      · rw [collapseGo_ws hw]
        exact ih2
    · have hw' : isWsB c = false := Bool.eq_false_iff.mpr hw
      have hcs : ¬ c = ' ' := fun he => by
        rw [he] at hw'
        exact absurd hw' (by decide)
      refine ⟨?_, ?_⟩
      · rw [collapseGo_nws_false hw', collNormB_step_nws hcs hw']
        exact ih1
      · rw [collapseGo_nws_true hw', collNormB_step_space, collNormB_step_nws hcs hw']
        exact ih1

theorem collNorm_collapseWs (s : Str) : collNorm (collapseWs s) = true := by
  unfold collapseWs
  cases hd : s.dropWhile isWsB with
  | nil => rfl
  | cons d r =>
    have hdw : isWsB d = false := dropWhile_head_false hd
    have hds : ¬ d = ' ' := fun he => by
      rw [he] at hdw
      exact absurd hdw (by decide)
    rw [collapseGo_nws_false hdw]
    show collNormB true (d :: collapseGo false r) = true
    rw [collNormB_step_nws hds hdw]
    exact (collapseGo_norm r).1

theorem collapseGo_normfix : ∀ r : Str,
    (collNormB false r = true → collapseGo false r = r) ∧
    (collNormB true r = true → collapseGo true r = ' ' :: r) := by
  intro r
  induction r with
  | nil =>
    refine ⟨fun _ => rfl, fun h => absurd h (by decide)⟩
  | cons c r3 ih =>
    obtain ⟨ih1, ih2⟩ := ih
    refine ⟨?_, ?_⟩
    · intro h
      by_cases hcs : c = ' '
      · subst hcs
        rw [collNormB_step_space] at h
        rw [collapseGo_ws (by decide)]
        exact ih2 h
      · have hcw : isWsB c = false := collNormB_ws_elim h hcs
        rw [collapseGo_nws_false hcw]
        rw [collNormB_step_nws hcs hcw] at h
        rw [ih1 h]
    · intro h
      by_cases hcs : c = ' '
      · subst hcs
        exact absurd (collNormB_space_true_elim h) (fun f => f)
      · have hcw : isWsB c = false := collNormB_ws_elim h hcs
        rw [collapseGo_nws_true hcw]
        rw [collNormB_step_nws hcs hcw] at h
        rw [ih1 h]

theorem collapseWs_fix : ∀ t : Str, collNorm t = true → collapseWs t = t := by
  intro t h
  cases t with
  | nil => rfl
  | cons c r =>
    have h' : collNormB true (c :: r) = true := h
    by_cases hcs : c = ' '
    · subst hcs
      exact absurd (collNormB_space_true_elim h') (fun f => f)
    · have hcw : isWsB c = false := collNormB_ws_elim h' hcs
      unfold collapseWs
      rw [List.dropWhile_cons_of_neg (by simp [hcw])]
      rw [collapseGo_nws_false hcw]
      rw [collNormB_step_nws hcs hcw] at h'
      rw [(collapseGo_normfix r).1 h']

theorem dropWhile_preserves_noTag : ∀ s : Str, noTagB s = true →
    noTagB (s.dropWhile isWsB) = true := by
  intro s
  induction s with
  | nil => intro h; exact h
  | cons c r ih =>
    intro h
    rw [List.dropWhile_cons]
    split
    · exact ih (noTagB_cons h)
    · exact h

theorem dropWhile_preserves_noEnt : ∀ s : Str, noEntB s = true →
    noEntB (s.dropWhile isWsB) = true := by
  intro s
  induction s with
  | nil => intro h; exact h
  | cons c r ih =>
    intro h
    rw [List.dropWhile_cons]
    split
    · exact ih (noEntB_cons h)
    · exact h

theorem collapseWs_preserves_noTag {t : Str} (h : noTagB t = true) :
    noTagB (collapseWs t) = true :=
  collapse_preserves_noTag _ false (dropWhile_preserves_noTag t h)

theorem collapseWs_preserves_noEnt {t : Str} (h : noEntB t = true) :
    noEntB (collapseWs t) = true :=
  collapse_preserves_noEnt _ false (dropWhile_preserves_noEnt t h)

/-- C8 (amended): `strip_html` of the streamlit light implementation —
remove tags, replace entities by a space, collapse whitespace, trim —
is idempotent on every string.  The inline sanitizer of
`research_assistant.py` is not: it deletes entities outright (with no
whitespace normalization), and deleting an entity can splice the
surrounding characters into a new entity — see the counterexample. -/
theorem stripHtmlLight_idempotent : ∀ s : Str,
    stripHtmlLight (stripHtmlLight s) = stripHtmlLight s := by
  intro s
  have hQ0 : noTagB (stripTags s) = true := noTag_stripTags s.length s (le_refl _)
  have hQ1 : noTagB (stripEntGo isAsciiAlpha [' '] none (stripTags s)) = true :=
    ent_preserves_noTag (stripTags s).length _ (le_refl _) hQ0
  have hE1 : noEntB (stripEntGo isAsciiAlpha [' '] none (stripTags s)) = true :=
    noEnt_stripEnt (stripTags s).length _ (le_refl _)
  have hQ2 : noTagB (stripHtmlLight s) = true := collapseWs_preserves_noTag hQ1
  have hE2 : noEntB (stripHtmlLight s) = true := collapseWs_preserves_noEnt hE1
  have hCN : collNorm (stripHtmlLight s) = true := collNorm_collapseWs _
  show collapseWs (stripEntGo isAsciiAlpha [' '] none (stripTags (stripHtmlLight s))) =
    stripHtmlLight s
  have h1 : stripTags (stripHtmlLight s) = stripHtmlLight s :=
    stripTags_fix _ hQ2
  rw [h1]
  have h2 : stripEntGo isAsciiAlpha [' '] none (stripHtmlLight s) = stripHtmlLight s :=
    stripEnt_fix [' '] (stripHtmlLight s).length _ (le_refl _) hE2
  rw [h2]
  exact collapseWs_fix _ hCN

/-- C8 (counterexample): the `research_assistant.py` sanitizer is not
idempotent: on `"&am&amp;p;"` the first pass deletes the entity
`"&amp;"` and thereby splices `"&am" ++ "p;"` into the new entity
`"&amp;"`, which a second pass deletes. -/
theorem sanitizeRA_not_idempotent_counterexample :
    sanitizeRA "&am&amp;p;".toList = "&amp;".toList ∧
    sanitizeRA (sanitizeRA "&am&amp;p;".toList) = ([] : Str) ∧
    ¬ sanitizeRA (sanitizeRA "&am&amp;p;".toList) = sanitizeRA "&am&amp;p;".toList := by
  refine ⟨by decide, by decide, by decide⟩
